import Mathlib

/-
Verification of the p4_tool repository's core logic: the property-block
engine (src/core/file_operations.py), the property diff
(src/core/file_operations.py, src/core/core_utils.py), the workspace
resolver, the integration-history walker and the cascade resolver
(src/core/p4_operations.py, src/core/core_utils.py), and the client
mapping manager (src/core/p4_operations.py, src/core/core_utils.py).

Python strings are modelled as lists of characters (`Str`); Python dicts
with string keys as association lists in insertion order; subprocess and
Perforce effects as explicit inputs (command outcomes, oracles) to the
modelled functions.
-/

set_option maxRecDepth 20000

namespace P4Tool

/-- Python strings are modelled as lists of characters. -/
abbrev Str := List Char

/-- Whitespace characters recognised by Python's `str.strip()` (ASCII range). -/
def isWs (c : Char) : Bool :=
  c = ' ' ∨ c = '\t' ∨ c = '\n' ∨ c = '\r' ∨ c = '\x0b' ∨ c = '\x0c'

/-- Python `str.lstrip()`. -/
def lstrip (s : Str) : Str := s.dropWhile isWs

/-- Python `str.rstrip()`. -/
def rstrip (s : Str) : Str := s.rdropWhile isWs

/-- Python `str.strip()`. -/
def pstrip (s : Str) : Str := lstrip (rstrip s)

/-- Python `str.rstrip(chars)`: drop trailing characters belonging to `cs`. -/
def rstripSet (cs : List Char) (s : Str) : Str := s.rdropWhile (cs.contains ·)

/-- Index of the first occurrence of `pat` as a contiguous substring of `s`
(the scan performed by Python's `str.find`/`in`/`split`). -/
def findOcc (pat : Str) : Str → Option Nat
  | [] => if pat.isPrefixOf ([] : Str) then some 0 else none
  | c :: rest =>
    if pat.isPrefixOf (c :: rest) then some 0 else (findOcc pat rest).map (· + 1)

/-- Python's substring test `pat in s`. -/
def containsSub (pat s : Str) : Bool := (findOcc pat s).isSome

/-- Fuel-driven worker for `pySplit`. -/
def pySplitAux (pat : Str) : Nat → Str → List Str
  | 0, s => [s]
  | fuel + 1, s =>
    match findOcc pat s with
    | none => [s]
    | some i => s.take i :: pySplitAux pat fuel (s.drop (i + pat.length))

/-- Python `s.split(pat)` for a non-empty separator `pat`. -/
def pySplit (pat s : Str) : List Str := pySplitAux pat (s.length + 1) s

/-- Part of `s` before the first occurrence of character `c`
(Python `s.split(c)[0]`). -/
def beforeChar (c : Char) (s : Str) : Str := s.takeWhile (· ≠ c)

/-- Part of `s` after the first occurrence of character `c`
(Python `s.split(c, 1)[1]`, used only when `c` occurs in `s`). -/
def afterChar (c : Char) (s : Str) : Str := (s.dropWhile (· ≠ c)).drop 1

/-- Association list from string keys, modelling a Python dict in insertion
order. -/
abbrev AList (β : Type) := List (Str × β)

/-- Python dict lookup `m[k]` (keys are unique in a dict, so first match). -/
def lookupKey {β : Type} : AList β → Str → Option β
  | [], _ => none
  | (k', v) :: rest, k => if k' = k then some v else lookupKey rest k

/-- Python membership test `k in m`. -/
def hasKey {β : Type} (m : AList β) (k : Str) : Bool := (lookupKey m k).isSome

/-- Python `del m[k]` (keys are unique in a dict, so removing every pair with
key `k` is the same as removing the one entry). -/
def eraseKey {β : Type} (m : AList β) (k : Str) : AList β :=
  m.filter (fun p => p.1 ≠ k)

/-- Python dict assignment `m[k] = v`: update in place when the key exists,
append otherwise. -/
def setKey {β : Type} (m : AList β) (k : Str) (v : β) : AList β :=
  if hasKey m k then m.map (fun p => if p.1 = k then (p.1, v) else p)
  else m ++ [(k, v)]

/-- Property mapping `{key: value}` of one category. -/
abbrev PropMap := AList Str

/-- The `PRODUCT_PROPERTY_OVERRIDES` marker. -/
def productMarker : Str := "PRODUCT_PROPERTY_OVERRIDES".toList

/-- The `+=` marker. -/
def plusEq : Str := "+=".toList

/-- Boolean test that a line's stripped content equals the start header
(`line.strip() == start_header` in src/core/file_operations.py). -/
def isStartLine (sh : Str) (l : Str) : Bool := decide (pstrip l = sh)

/-- Boolean test that a line's stripped content belongs to the end-header
candidate list (`lines[idx].strip() in next_header_list`). -/
def isEndLine (nhl : List Str) (l : Str) : Bool := decide (pstrip l ∈ nhl)

/-- Model of `extract_block` (src/core/file_operations.py lines 9-25, same
code as `PropertyManager._extract_block` in src/core/core_utils.py): find the
first line whose stripped content equals `sh`, then the first later line whose
stripped content is in `nhl`, and return the half-open slice between them
(to the end of the input when no such later line exists); `[]` when the start
header is absent. -/
def extract_block (lines : List Str) (sh : Str) (nhl : List Str) : List Str :=
  match lines.dropWhile (fun l => !isStartLine sh l) with
  | [] => []
  | h :: t => h :: t.takeWhile (fun l => !isEndLine nhl l)

/-- Value extraction of `_parse_properties_block` for a stripped `=` line:
split at the first `=` after dropping the trailing ` \`-continuation, strip,
and cut at a trailing inline comment. -/
def parseValue (s : Str) : Str :=
  if decide ('#' ∈ pstrip (afterChar '=' (rstripSet [' ', '\\'] s)))
  then pstrip (beforeChar '#' (pstrip (afterChar '=' (rstripSet [' ', '\\'] s))))
  else pstrip (afterChar '=' (rstripSet [' ', '\\'] s))

/-- One step of the parsing fold of `PropertyManager._parse_properties_block`
over a single line. -/
def parseStep (props : PropMap) (line : Str) : PropMap :=
  if pstrip line = [] then props
  else if (pstrip line).head? = some '#' then props
  else if containsSub productMarker (pstrip line) then props
  else if decide ('=' ∈ pstrip line) then
    setKey props (pstrip (beforeChar '=' (rstripSet [' ', '\\'] (pstrip line))))
      (parseValue (pstrip line))
  else props

/-- Model of `PropertyManager._parse_properties_block`
(src/core/core_utils.py lines 149-179): skip blank lines, comment lines and
`PRODUCT_PROPERTY_OVERRIDES` lines; for `=` lines drop a trailing
` \`-continuation, split at the first `=`, strip key and value, and cut the
value at a trailing inline comment; later occurrences of a key overwrite
earlier ones. -/
def parse_properties_block (block : List Str) : PropMap :=
  block.foldl parseStep []

/-- Start-of-override-block test used by `analyze_product_override_blocks`
(src/core/file_operations.py line 247): the stripped line contains both
`PRODUCT_PROPERTY_OVERRIDES` and `+=`. -/
def isOvStart (l : Str) : Bool :=
  containsSub productMarker (pstrip l) && containsSub plusEq (pstrip l)

/-- Member-collection loop of `analyze_product_override_blocks`
(src/core/file_operations.py lines 254-284): blank and comment lines are part
of the block; an `=` line is part of the block and ends it unless it ends
with a backslash; any other line ends the block without belonging to it. -/
def collectOvBody : List Str → List Str
  | [] => []
  | l :: rest =>
    if pstrip l = [] ∨ (pstrip l).head? = some '#' then l :: collectOvBody rest
    else if decide ('=' ∈ pstrip l) then
      if (pstrip l).getLast? = some '\\' then l :: collectOvBody rest else [l]
    else []

/-- One `PRODUCT_PROPERTY_OVERRIDES` block found by the analysis: the index
of its header line inside the section and its member lines.  The indices
collected by the Python code are the contiguous range starting at `start`,
so the member-line list is enough. -/
structure OvBlock where
  start : Nat
  body : List Str
deriving Repr, DecidableEq

/-- Scanning loop of `analyze_product_override_blocks`
(src/core/file_operations.py lines 243-292).  After recording a block the
Python loop continues at the line following the block's last member; the
`skip` counter consumes those member lines one at a time so that the
recursion stays structural. -/
def analyzeGo : List Str → Nat → Nat → List OvBlock
  | [], _, _ => []
  | _ :: rest, i, skip + 1 => analyzeGo rest (i + 1) skip
  | l :: rest, i, 0 =>
    if isOvStart l then
      ⟨i, collectOvBody rest⟩ :: analyzeGo rest (i + 1) (collectOvBody rest).length
    else analyzeGo rest (i + 1) 0

/-- Model of `analyze_product_override_blocks`
(src/core/file_operations.py lines 238-294) on the section body (the lines
after the header line, whose first element has index 1 in the section). -/
def analyzeBlocks (ls : List Str) (i : Nat) : List OvBlock := analyzeGo ls i 0

/-- Content of an override member line after dropping a trailing
backslash: `prop_stripped[:-1].strip() if prop_stripped.endswith("\\") else
prop_stripped` (src/core/file_operations.py line 356) applied to the
stripped line. -/
def ovContent (s : Str) : Str :=
  if s.getLast? = some '\\' then pstrip s.dropLast else s

/-- Existing-property collection of the override branch of
`update_product_override_block_with_deletions`
(src/core/file_operations.py lines 344-364): walk the block's member lines,
and for each property line whose key is still in `remaining`, move the key
with its new value into `block_props` and delete it from `remaining`. -/
def collectOvProps : List Str → PropMap → PropMap × PropMap
  | [], rem => ([], rem)
  | l :: rest, rem =>
    if pstrip l = [] ∨ (pstrip l).head? = some '#' then collectOvProps rest rem
    else if decide ('=' ∈ pstrip l) then
      if decide ('=' ∈ ovContent (pstrip l)) then
        if hasKey rem (pstrip (beforeChar '=' (ovContent (pstrip l)))) then
          ((pstrip (beforeChar '=' (ovContent (pstrip l))),
              (lookupKey rem (pstrip (beforeChar '=' (ovContent (pstrip l))))).getD [])
            :: (collectOvProps rest
                (eraseKey rem (pstrip (beforeChar '=' (ovContent (pstrip l)))))).1,
            (collectOvProps rest
              (eraseKey rem (pstrip (beforeChar '=' (ovContent (pstrip l)))))).2)
        else collectOvProps rest rem
      else collectOvProps rest rem
    else collectOvProps rest rem

/-- Indentation detection of the override branch
(src/core/file_operations.py lines 335-341): leading whitespace of the first
member line that is a non-comment `=` line, four spaces by default. -/
def ovIndent (body : List Str) : Str :=
  match body.find? (fun l =>
      decide ('=' ∈ pstrip l) && !((pstrip l).head? = some '#' : Bool)) with
  | none => "    ".toList
  | some l => l.takeWhile isWs

/-- Serialisation of an override block's properties
(src/core/file_operations.py lines 372-378): every line `indent key=value`
with a ` \` continuation on all but the last line. -/
def renderOvProps (ind : Str) : PropMap → List Str
  | [] => []
  | [(k, v)] => [ind ++ k ++ '=' :: (v ++ ['\n'])]
  | (k, v) :: rest =>
    (ind ++ k ++ '=' :: (v ++ [' ', '\\', '\n'])) :: renderOvProps ind rest

/-- Serialisation of one whole override block: the collected existing
properties followed by all still-remaining ones, rendered with the block's
indentation; nothing when both parts are empty
(src/core/file_operations.py lines 366-380). -/
def ovSerialize (body : List Str) (bp rem₁ : PropMap) : List Str :=
  if (bp ++ rem₁).isEmpty then [] else renderOvProps (ovIndent body) (bp ++ rem₁)

/-- The rewritten form of a plain property line `l` whose key is updated to
the new value: original indentation, key, new value, a re-extracted trailing
comment when the old value contained `#`, and the newline
(src/core/file_operations.py lines 462-470). -/
def updLine (l : Str) (rem : PropMap) : Str :=
  l.takeWhile isWs ++ pstrip (beforeChar '=' (pstrip l))
    ++ '=' :: ((lookupKey rem (pstrip (beforeChar '=' (pstrip l)))).getD []
      ++ ((if decide ('#' ∈ afterChar '=' (pstrip l))
            then ' ' :: '#' :: rstrip (afterChar '#' (afterChar '=' (pstrip l)))
            else [])
        ++ ['\n']))

/-- Model of the main loop of `update_product_override_block_with_deletions`
(src/core/file_operations.py lines 305-411) over the section body (the lines
after the kept header line, first index 1).  The Python loop walks indices
and skips the ones recorded in `processed_lines`; since the recorded indices
of a block are exactly the contiguous run of its header and member lines,
skipping them is the same as consuming that many lines through the `skip`
counter here (which keeps the recursion structural).  Returns the rewritten
body and the not-yet-placed properties. -/
def updGo (blocks : List OvBlock) : List Str → Nat → Nat → PropMap → List Str × PropMap
  | [], _, _, rem => ([], rem)
  | _ :: rest, i, skip + 1, rem => updGo blocks rest (i + 1) skip rem
  | l :: rest, i, 0, rem =>
    if pstrip l = [] ∨ (pstrip l).head? = some '#' then
      (l :: (updGo blocks rest (i + 1) 0 rem).1, (updGo blocks rest (i + 1) 0 rem).2)
    else
      match blocks.find? (fun b => b.start = i) with
      | some b =>
        (l :: (ovSerialize b.body (collectOvProps b.body rem).1 (collectOvProps b.body rem).2
            ++ (updGo blocks rest (i + 1) b.body.length []).1),
          (updGo blocks rest (i + 1) b.body.length []).2)
      | none =>
        if decide ('=' ∈ pstrip l) && !containsSub productMarker (pstrip l) then
          if hasKey rem (pstrip (beforeChar '=' (pstrip l))) then
            (updLine l rem
                :: (updGo blocks rest (i + 1) 0
                  (eraseKey rem (pstrip (beforeChar '=' (pstrip l))))).1,
              (updGo blocks rest (i + 1) 0
                (eraseKey rem (pstrip (beforeChar '=' (pstrip l))))).2)
          else updGo blocks rest (i + 1) 0 rem
        else
          (l :: (updGo blocks rest (i + 1) 0 rem).1, (updGo blocks rest (i + 1) 0 rem).2)

/-- Model of `get_default_indentation` (src/core/file_operations.py lines
296-303): leading whitespace of the first line of the section that contains
`=`, is not a comment and does not mention `PRODUCT_PROPERTY_OVERRIDES`;
four spaces by default. -/
def get_default_indentation (ls : List Str) : Str :=
  match ls.find? (fun l =>
      decide ('=' ∈ l) && !((pstrip l).head? = some '#' : Bool)
        && !containsSub productMarker l) with
  | none => "    ".toList
  | some l => l.takeWhile isWs

/-- Model of `add_remaining_properties` (src/core/file_operations.py lines
413-426): append a `default_indent key=value` line for every property that
was not placed inside the section. -/
def add_remaining_properties (nb : List Str) (rem : PropMap) (orig : List Str) :
    List Str :=
  if rem.isEmpty then nb
  else nb ++ rem.map (fun p => get_default_indentation orig ++ p.1 ++ '=' :: (p.2 ++ ['\n']))

/-- Rewrite of one extracted section (header line plus body): the composition
performed by `update_properties_block_preserve_format_with_deletions`
(src/core/file_operations.py lines 436-448) after the block boundaries have
been found. -/
def rewriteBlock (blk : List Str) (newProps : PropMap) : List Str :=
  match blk with
  | [] => []
  | hd :: body =>
    add_remaining_properties
      (hd :: (updGo (analyzeBlocks body 1) body 1 0 newProps).1)
      (updGo (analyzeBlocks body 1) body 1 0 newProps).2
      (hd :: body)

/-- Model of `update_properties_block_preserve_format_with_deletions`
(src/core/file_operations.py lines 428-451): locate the section between the
first line stripping to `sh` and the first later line stripping into `nhl`
(`find_block_boundaries`, lines 218-236), rewrite that slice, splice it back;
the input is returned unchanged when the start header is absent. -/
def update_properties_block_preserve_format_with_deletions
    (lines : List Str) (newProps : PropMap) (sh : Str) (nhl : List Str) : List Str :=
  match lines.dropWhile (fun l => !isStartLine sh l) with
  | [] => lines
  | h :: t =>
    lines.takeWhile (fun l => !isStartLine sh l)
      ++ rewriteBlock (h :: t.takeWhile (fun l => !isEndLine nhl l)) newProps
      ++ t.dropWhile (fun l => !isEndLine nhl l)

/-- Header constant `# LMKD property`. -/
def lmkdHeader : Str := "# LMKD property".toList

/-- Header constant `# DHA property`. -/
def dhaHeader : Str := "# DHA property".toList

/-- Header constant `# Chimera property`. -/
def chimeraHeader : Str := "# Chimera property".toList

/-- Header constant `# Nandswap`. -/
def nandswapHeader : Str := "# Nandswap".toList

/-- Model of `update_properties_in_file` (src/core/file_operations.py lines
457-485) on the in-memory line list: the file read and write are modelled
away, so the returned pair is the new line list together with the Python
return value `(True, None)` of the non-raising path. -/
def update_properties_in_file (lines : List Str) (pd : AList PropMap) :
    List Str × (Bool × Option Str) :=
  let l₁ :=
    match lookupKey pd "LMKD".toList with
    | some m =>
      if m.isEmpty then lines
      else
        let u := update_properties_block_preserve_format_with_deletions lines m
          lmkdHeader [chimeraHeader, dhaHeader]
        if u.any (fun l => containsSub lmkdHeader l) then u
        else update_properties_block_preserve_format_with_deletions u m
          dhaHeader [chimeraHeader]
    | none => lines
  let l₂ :=
    match lookupKey pd "Chimera".toList with
    | some m =>
      if m.isEmpty then l₁
      else update_properties_block_preserve_format_with_deletions l₁ m
        chimeraHeader [nandswapHeader, ['#'], []]
    | none => l₁
  (l₂, (true, none))

/-- Key of a line as seen by `parse_properties_block`: `none` when the
parser skips the line (blank, comment, `PRODUCT_PROPERTY_OVERRIDES` mention,
no `=`), otherwise the parsed key.  A line `l` is a property line for key
`k` exactly when `lineKey l = some k`. -/
def lineKey (l : Str) : Option Str :=
  if pstrip l = [] then none
  else if (pstrip l).head? = some '#' then none
  else if containsSub productMarker (pstrip l) then none
  else if decide ('=' ∈ pstrip l) then
    some (pstrip (beforeChar '=' (rstripSet [' ', '\\'] (pstrip l))))
  else none

/-- Well-formedness of a property key: no `=`, stable under stripping, and
not beginning with `#`.  Every key produced by `parse_properties_block` has
this shape. -/
def KeyShape (k : Str) : Prop :=
  ('=' ∉ k) ∧ pstrip k = k ∧ k.head? ≠ some '#'

/-- Alignment invariant between an override-block list and the remaining
line list of the update loop: every block start at or past the current index
points at an override-header line.  `analyzeBlocks` establishes it and each
step of `updGo` preserves it. -/
def StartsAreOv (blocks : List OvBlock) (ls : List Str) (i : Nat) : Prop :=
  ∀ b ∈ blocks, i ≤ b.start → b.start - i < ls.length →
    isOvStart (ls.getD (b.start - i) []) = true

/-- Lines that the update loop passes through unchanged and that carry no
property key: blank lines, comment lines and `=`-free lines, none of which
mention `PRODUCT_PROPERTY_OVERRIDES`. -/
def Inert (l : Str) : Prop :=
  containsSub productMarker (pstrip l) = false
    ∧ (pstrip l = [] ∨ (pstrip l).head? = some '#' ∨ '=' ∉ pstrip l)

/-- Shape of a property line as (re)written by the update code for key `k`:
whitespace indentation, `k=`, the value recorded for `k` in `P`, optionally a
re-extracted trailing comment ` #…` with no trailing whitespace, and a
newline. -/
def RenderedLine (P : PropMap) (k l : Str) : Prop :=
  ∃ ind v tail, (∀ c ∈ ind, isWs c = true)
    ∧ lookupKey P k = some v
    ∧ (tail = [] ∨ ∃ tr, tail = ' ' :: '#' :: tr ∧ rstrip tr = tr
        ∧ containsSub productMarker tr = false)
    ∧ l = ind ++ k ++ '=' :: (v ++ (tail ++ ['\n']))

/-- Well-formedness of a new-property mapping as built from a Python dict of
parsed properties: unique keys, well-shaped keys, no
`PRODUCT_PROPERTY_OVERRIDES` inside keys or values, and no `#` inside
values. -/
def PWF (P : PropMap) : Prop :=
  (P.map Prod.fst).Nodup
    ∧ ∀ p ∈ P, KeyShape p.1 ∧ containsSub productMarker p.1 = false
        ∧ containsSub productMarker p.2 = false ∧ '#' ∉ p.2

/-- Normal form of a rewritten section body: every line is inert (and
satisfies the side predicate `Q`) or is a rendered property line; `ks`
records the keys of the rendered lines in order. -/
inductive NormBody (Q : Str → Prop) (P : PropMap) : List Str → List Str → Prop
  | nil : NormBody Q P [] []
  | inert {l ls ks} : Inert l → Q l → NormBody Q P ls ks →
      NormBody Q P (l :: ls) ks
  | rendered {l ls ks k} : RenderedLine P k l → NormBody Q P ls ks →
      NormBody Q P (l :: ls) (k :: ks)

/-- Model of the mapping-line construction of `_map_client_depots_core`
(src/core/p4_operations.py line 160; the same f-string appears in
`P4ClientMapper.map_depots`, src/core/core_utils.py line 48):
`\t{depot}\t//{client}/{depot[2:]}`. -/
def mkMappingLine (client depot : Str) : Str :=
  '\t' :: depot ++ '\t' :: '/' :: '/' :: client ++ '/' :: depot.drop 2

/-- Model of the client-spec document transformation performed by
`_map_client_depots_core` (src/core/p4_operations.py lines 158-178) and by
`P4ClientMapper.map_depots` (src/core/core_utils.py lines 37-51): drop every
spec line containing one of the target depot paths as a substring, then
append one fresh mapping line per depot.  The fetch and resubmission through
`p4 client -o` / `p4 client -i` are modelled as reading and writing this
line list. -/
def map_depots_lines (client : Str) (specLines : List Str) (depots : List Str) :
    List Str :=
  specLines.filter (fun l => !depots.any (fun d => containsSub d l))
    ++ depots.map (mkMappingLine client)

/-- Sentinel for a key missing from one side of the comparison. -/
def missingSentinel : Str := "<missing>".toList

/-- Model of `compare_property_dict` (src/core/file_operations.py lines
556-569; the same comparison is `PropertyManager._compare_property_dict` in
src/core/core_utils.py lines 200-214).  The key set is the union of both
dicts' key sets (the Python `set` union iterates in unspecified order;
first-occurrence order is used here), and a difference record is produced
for every key whose two looked-up values (with the `<missing>` default)
differ.  Records are kept structured as (category, key, value1, value2);
`renderDiff` performs the f-string rendering of the source. -/
def compare_property_dict (d1 d2 : PropMap) (cat : Str) :
    List (Str × Str × Str × Str) :=
  ((d1.map Prod.fst ++ d2.map Prod.fst).dedup).filterMap (fun k =>
    let v1 := (lookupKey d1 k).getD missingSentinel
    let v2 := (lookupKey d2 k).getD missingSentinel
    if v1 ≠ v2 then some (cat, k, v1, v2) else none)

/-- Rendering of one difference record as in the source:
`{category}.{key}: Dict1='{val1}' vs Dict2='{val2}'`. -/
def renderDiff (r : Str × Str × Str × Str) : Str :=
  r.1 ++ '.' :: r.2.1 ++ ": Dict1='".toList ++ r.2.2.1 ++ "' vs Dict2='".toList
    ++ r.2.2.2 ++ ['\'']

/-- String-valued comparison exactly as returned by the source. -/
def compare_property_dict_rendered (d1 d2 : PropMap) (cat : Str) : List Str :=
  (compare_property_dict d1 d2 cat).map renderDiff

/-- Left-hand depot side of a view mapping line: `view.split()[0]`
(src/core/p4_operations.py line 56).  Python's whitespace `split()` discards
empty fields, so the first field is the first maximal run of non-whitespace
characters; the `[0]` access presupposes a non-blank line, modelled by the
empty string for a blank one. -/
def leftSide (v : Str) : Str := (lstrip v).takeWhile (fun c => !isWs c)

/-- Decision of `re.search(r"/device/[^/]+?_common/", depot_path)`
(src/core/p4_operations.py line 60): some position of the string carries the
literal `/device/`, followed by at least one non-slash character, followed
by the literal `_common/`.  The boolean value of the search is all the code
uses, and it does not depend on the regex engine's leftmost/non-greedy
choice of match. -/
def deviceCommonMatch (s : Str) : Bool :=
  (List.range s.length).any (fun i =>
    "/device/".toList.isPrefixOf (s.drop i) &&
      ((List.range (s.drop (i + 8)).length).any (fun j =>
        decide (1 ≤ j) && "_common/".toList.isPrefixOf ((s.drop (i + 8)).drop j) &&
          ((s.drop (i + 8)).take j).all (fun c => c ≠ '/'))))

/-- Candidate construction of `find_device_common_mk_path`
(src/core/p4_operations.py lines 62-63): strip the trailing `...` (every
trailing dot character, per `str.rstrip`) and append `device_common.mk`. -/
def deviceCommonCandidate (d : Str) : Str :=
  rstripSet ['.'] d ++ "device_common.mk".toList

/-- View-scanning loop of `find_device_common_mk_path`
(src/core/p4_operations.py lines 51-72): collect the left depot side of
every mapping line, collect a candidate path for every left side matching
the `device/<model>_common/` pattern, and return the first candidate (or
`None`) together with the full unfiltered left-side list. -/
def find_device_common_core : List Str → Option Str × List Str
  | [] => (none, [])
  | v :: rest =>
    let d := leftSide v
    let (c, als) := find_device_common_core rest
    (if deviceCommonMatch d then some (deviceCommonCandidate d) else c, d :: als)

/-- Model of `find_device_common_mk_path` (src/core/p4_operations.py lines
33-83) as a function of the outcome of connecting and fetching the client
spec through P4Python: a `P4Exception` is the `Except.error` input case and
is re-raised as `RuntimeError("P4 Error: ...")` (lines 74-78); a fetched
spec is the list of its `View` mapping strings and is processed by the pure
scanning loop.  No existence validation is performed on this path. -/
def find_device_common_mk_run (outcome : Except Str (List Str)) :
    Except Str (Option Str × List Str) :=
  match outcome with
  | .error e => .error ("P4 Error: ".toList ++ e)
  | .ok views => .ok (find_device_common_core views)

/-- Modelled from the claim (and spec section 4.2): the first component
should be the first candidate `device_common.mk` path whose existence is
validated by a depot-path-exists check (`validate_depot_path`), and `None`
when no candidate validates.  Stated over the same view list together with a
validation oracle, for comparison with `find_device_common_core`. -/
def claimed_first_component (views : List Str) (validate : Str → Bool) :
    Option Str :=
  ((((views.map leftSide).filter deviceCommonMatch).map deviceCommonCandidate).filter
    validate).head?

/-- Outcome of a `subprocess.run` invocation: exit code and standard
output. -/
structure CmdResult where
  returncode : Int
  stdout : Str
deriving DecidableEq

/-- The filelog marker `... ... branch from `. -/
def branchFromMarker : Str := "... ... branch from ".toList

/-- Extraction applied to the first marker line by
`get_integration_source_depot_path` (src/core/p4_operations.py lines
379-386): `line.split("from ")[1]` on the stripped line, then the part
before the first `#`, then the part before the first `,`. -/
def extractSourcePath (l : Str) : Str :=
  beforeChar ',' (beforeChar '#' ((pySplit "from ".toList l).getD 1 []))

/-- First line of the filelog output whose stripped content starts with the
`... ... branch from ` marker (the scan of src/core/p4_operations.py lines
376-379 over `output.split("\n")`). -/
def firstMarkerLine (stdout : Str) : Option Str :=
  (pySplit ['\n'] (pstrip stdout)).find?
    (fun l => branchFromMarker.isPrefixOf (pstrip l))

/-- Model of the output-parsing part of `get_integration_source_depot_path`
(src/core/p4_operations.py lines 369-392): strip the command output, return
`None` when it is empty, otherwise return the extracted source path of the
first marker line, or `None` when no marker line exists. -/
def get_integration_source_parse (stdout : Str) : Option Str :=
  if pstrip stdout = [] then none
  else
    match firstMarkerLine stdout with
    | none => none
    | some l => some (extractSourcePath (pstrip l))

/-- Modelled from the claim: the returned source path should be the text of
the first marker line after the `... ... branch from ` marker, with the
`#<revision>` suffix and any trailing comma-separated secondary revision
stripped off, and `None` when no marker line exists. -/
def claimed_integration_source (stdout : Str) : Option Str :=
  match firstMarkerLine stdout with
  | none => none
  | some l =>
    some (beforeChar ',' (beforeChar '#' ((pstrip l).drop branchFromMarker.length)))

/-- Model of `get_integration_source_depot_path` (src/core/p4_operations.py
lines 346-397) as a function of the outcome of running
`p4 filelog -i <path>#1`: an exception while running the command is the
`Except.error` input case, which the function catches, logging and returning
`None` (lines 394-397); a non-zero exit code also yields `None` (lines
364-367); otherwise the output is parsed.  The result is wrapped in `Except`
to record that the function itself never raises: every branch is `.ok`. -/
def get_integration_source_run (outcome : Except Str CmdResult) :
    Except Str (Option Str) :=
  match outcome with
  | .error _ => .ok none
  | .ok r =>
    if r.returncode ≠ 0 then .ok none
    else .ok (get_integration_source_parse r.stdout)

/-- Environment of the cascade resolver: the integration-history oracle
(`get_integration_source_depot_path`) and the depot-existence oracle
(`PathValidator.validate_depot_path`).  Client mapping
(`P4ClientMapper.map_single_depot`) and syncing (`sync_file_silent`) only
change workspace state storage, not any value read by the resolver, and are
modelled as succeeding. -/
structure CascadeEnv where
  integrationSource : Str → Option Str
  validDepot : Str → Bool

/-- Loop of `AutoResolver.resolve_cascading_branches`
(src/core/core_utils.py lines 353-376) over the remaining branch names:
query the integration source of the current branch's depot path, raising
when it is missing (`if not source_depot:` — Python falsiness covers both
`None` and the empty string — naming the current branch) or when it does
not validate (naming the source path), and otherwise record it for the next
branch and continue from it. -/
def resolve_cascading_go (env : CascadeEnv) :
    Str → Str → List Str → Except Str (List (Str × Str))
  | _, _, [] => .ok []
  | cur, curBranch, b :: bs =>
    match env.integrationSource cur with
    | none =>
      .error ("No integration history found for ".toList ++ curBranch
        ++ ": ".toList ++ cur)
    | some src =>
      if src = [] then
        .error ("No integration history found for ".toList ++ curBranch
          ++ ": ".toList ++ cur)
      else if env.validDepot src then
        match resolve_cascading_go env src b bs with
        | .ok l => .ok ((b, src) :: l)
        | .error e => .error e
      else .error ("Integration source does not exist: ".toList ++ src)

/-- Model of `AutoResolver.resolve_cascading_branches`
(src/core/core_utils.py lines 326-386): the first branch name is bound to
the starting depot path, the remaining branches are resolved by the loop,
and any raised error is re-raised wrapped as
`RuntimeError("Auto-resolve failed: ...")` by the handler at line 386.  The
`branch_order[0]` access of an empty order raises an uncaught `IndexError`,
modelled by its Python message. -/
def resolve_cascading_branches (env : CascadeEnv) (startDepot : Str)
    (branchOrder : List Str) : Except Str (List (Str × Str)) :=
  match branchOrder with
  | [] => .error "list index out of range".toList
  | b0 :: rest =>
    match resolve_cascading_go env startDepot b0 rest with
    | .ok l => .ok ((b0, startDepot) :: l)
    | .error e => .error ("Auto-resolve failed: ".toList ++ e)

/-- Model of `is_workspace_like` (src/core/p4_operations.py lines 306-310):
empty input is not workspace-like; otherwise the stripped, upper-cased input
must start with `TEMPLATE`. -/
def is_workspace_like (s : Str) : Bool :=
  if s = [] then false
  else "TEMPLATE".toList.isPrefixOf ((pstrip s).map Char.toUpper)

/-- Environment of `auto_resolve_vendor_branches`: the workspace resolver
(`find_device_common_mk_path`, exposed as its first component wrapped in the
errors it may raise), the depot-existence oracle and the
integration-history oracle.  Mapping and syncing are modelled as
succeeding, as in `CascadeEnv`. -/
structure VendorEnv where
  findDeviceCommon : Str → Except Str (Option Str)
  validDepot : Str → Bool
  integrationSource : Str → Option Str

/-- Python renders `None` as the string `None` inside f-strings. -/
def showOpt (o : Option Str) : Str :=
  match o with
  | none => "None".toList
  | some p => p

/-- The call `validate_depot_path(p)` where `p` may be Python `None`: the
command `p4 files None` fails, so `None` never validates. -/
def validOpt (env : VendorEnv) (o : Option Str) : Bool :=
  match o with
  | none => false
  | some p => env.validDepot p

/-- Model of the local helper `resolve_vendor_input_to_depot_path_local`
(src/core/p4_operations.py lines 447-484): empty input is returned as-is, a
`//` depot path is validated and returned or raises, a `TEMPLATE` workspace
is resolved through `find_device_common_mk_path` (whose failure is
re-raised as `Workspace resolution failed: ...`), anything else raises. -/
def resolve_vendor_input_local (env : VendorEnv) (s : Str) :
    Except Str (Option Str) :=
  let u := pstrip s
  if u = [] then .ok (some [])
  else if "//".toList.isPrefixOf u then
    if env.validDepot u then .ok (some u)
    else .error ("Depot path does not exist: ".toList ++ u)
  else if is_workspace_like u then
    match env.findDeviceCommon u with
    | .ok p => .ok p
    | .error e => .error ("Workspace resolution failed: ".toList ++ e)
  else
    .error ("Input must be either depot path (//depot/...) or workspace (TEMPLATE_*): ".toList
      ++ u)

/-- The BENI-from-FLUMEN step shared by all auto-resolve cases
(src/core/p4_operations.py lines 522-539, 567-585 and 605-623): query the
integration source of the FLUMEN depot path; when it is truthy (not `None`,
not empty) and validates it becomes the resolved BENI value, otherwise only
a warning is logged and the original BENI value is kept. -/
def beniFromFlumen (env : VendorEnv) (flumenDepot origBeni : Str) : Str :=
  match env.integrationSource flumenDepot with
  | some bs => if bs ≠ [] ∧ env.validDepot bs then bs else origBeni
  | none => origBeni

/-- Body of the `try` block of `auto_resolve_vendor_branches`
(src/core/p4_operations.py lines 486-644) on the normalized inputs
`(v, b, f, r)`; the result tuple is
`(resolved_beni, resolved_vince, resolved_flumen, resolved_rel)`. -/
def auto_resolve_vendor_try (env : VendorEnv) (v b f r : Str) :
    Except Str (Str × Str × Str × Str) :=
  if r ≠ [] ∧ v ≠ [] ∧ f = [] ∧ b = [] then
    match env.findDeviceCommon r with
    | .error e => .error e
    | .ok relDepot? =>
      if validOpt env relDepot? then
        match relDepot? with
        | none => .ok (b, v, f, r)
        | some relDepot =>
          match env.integrationSource relDepot with
          | some fs =>
            if fs ≠ [] ∧ env.validDepot fs then .ok (beniFromFlumen env fs b, v, fs, r)
            else .ok (b, v, f, r)
          | none => .ok (b, v, f, r)
      else .error ("REL path does not existt: ".toList ++ showOpt relDepot?)
  else if f ≠ [] ∧ v ≠ [] ∧ b = [] then
    match resolve_vendor_input_local env f with
    | .error e => .error e
    | .ok fd? =>
      if validOpt env fd? then
        match fd? with
        | none => .ok (b, v, f, r)
        | some fd => .ok (beniFromFlumen env fd b, v, f, r)
      else .error ("FLUMEN path does not exist: ".toList ++ showOpt fd?)
  else if f ≠ [] ∧ r ≠ [] ∧ v ≠ [] ∧ b = [] then
    match resolve_vendor_input_local env f with
    | .error e => .error e
    | .ok fd? =>
      if validOpt env fd? then
        match fd? with
        | none => .ok (b, v, f, r)
        | some fd => .ok (beniFromFlumen env fd b, v, f, r)
      else .error ("FLUMEN path does not exist: ".toList ++ showOpt fd?)
  else .ok (b, v, f, r)

/-- Model of `auto_resolve_vendor_branches` (src/core/p4_operations.py lines
399-650): inputs are stripped; an empty VINCE raises before the `try`
block; any error raised inside the `try` block is caught and the
normalized original inputs are returned (lines 646-650), so the function
returns normally in every other case. -/
def auto_resolve_vendor_branches (env : VendorEnv) (vince beni flumen rel : Str) :
    Except Str (Str × Str × Str × Str) :=
  if pstrip vince = [] then .error "VINCE is mandatory and cannot be empty".toList
  else
    match auto_resolve_vendor_try env (pstrip vince) (pstrip beni) (pstrip flumen)
        (pstrip rel) with
    | .ok t => .ok t
    | .error _ => .ok (pstrip beni, pstrip vince, pstrip flumen, pstrip rel)

end P4Tool

namespace P4Tool

/-! Basic facts about the string utilities. -/

theorem findOcc_eq_some_zero {pat s : Str} (h : pat.isPrefixOf s) :
    findOcc pat s = some 0 := by
  cases s with
  | nil => simp [findOcc, h]
  | cons c rest => simp [findOcc, h]

theorem containsSub_iff {pat s : Str} :
    containsSub pat s = true ↔ ∃ i, pat <+: s.drop i := by
  induction s with
  | nil =>
    simp only [containsSub, findOcc]
    constructor
    · intro h
      by_cases hp : pat.isPrefixOf ([] : Str)
      · exact ⟨0, by simpa [List.isPrefixOf_iff_prefix] using hp⟩
      · simp [hp] at h
    · rintro ⟨i, hi⟩
      simp only [List.drop_nil] at hi
      have : pat.isPrefixOf ([] : Str) := by
        simpa [List.isPrefixOf_iff_prefix] using hi
      simp [this]
  | cons c rest ih =>
    simp only [containsSub, findOcc]
    by_cases hp : pat.isPrefixOf (c :: rest)
    · rw [if_pos hp]
      simp only [Option.isSome_some, true_iff]
      exact ⟨0, by simpa [List.isPrefixOf_iff_prefix] using hp⟩
    · rw [if_neg hp]
      have hmap : (Option.map (fun x => x + 1) (findOcc pat rest)).isSome
          = (findOcc pat rest).isSome := by
        cases findOcc pat rest <;> rfl
      rw [hmap]
      have ih' : (findOcc pat rest).isSome = true ↔ ∃ i, pat <+: rest.drop i := ih
      rw [ih']
      constructor
      · rintro ⟨i, hi⟩
        exact ⟨i + 1, by simpa using hi⟩
      · rintro ⟨i, hi⟩
        cases i with
        | zero =>
          simp only [List.drop_zero] at hi
          exact absurd (by simpa [List.isPrefixOf_iff_prefix] using hi) hp
        | succ j => exact ⟨j, by simpa using hi⟩

theorem containsSub_of_prefix_drop {pat s : Str} (i : Nat)
    (h : pat <+: s.drop i) : containsSub pat s = true :=
  containsSub_iff.mpr ⟨i, h⟩

theorem containsSub_append_right {pat b : Str} (a : Str)
    (h : containsSub pat b = true) : containsSub pat (a ++ b) = true := by
  obtain ⟨i, hi⟩ := containsSub_iff.mp h
  refine containsSub_of_prefix_drop (a.length + i) ?_
  rwa [List.drop_append_eq_append_drop, List.drop_of_length_le (by omega),
    Nat.add_comm a.length i, Nat.add_sub_cancel, List.nil_append]

theorem containsSub_append_left {pat a : Str} (b : Str)
    (h : containsSub pat a = true) : containsSub pat (a ++ b) = true := by
  obtain ⟨i, hi⟩ := containsSub_iff.mp h
  refine containsSub_of_prefix_drop i ?_
  rw [List.drop_append_eq_append_drop]
  exact hi.trans (List.prefix_append _ _)

theorem prefix_append_cons {pat a b : Str} {c : Char} (hc : c ∉ pat)
    (h : pat <+: a ++ c :: b) : pat <+: a := by
  by_cases hlen : pat.length ≤ a.length
  · have h1 : pat = (a ++ c :: b).take pat.length := by
      obtain ⟨t, ht⟩ := h
      rw [← ht, List.take_left']
      rfl
    have h2 : (a ++ c :: b).take pat.length = a.take pat.length := by
      rw [List.take_append_of_le_length hlen]
    rw [h1, h2]
    exact List.take_prefix _ _
  · exfalso
    apply hc
    push_neg at hlen
    have hlen2 : a.length < (a ++ c :: b).length := by
      simp only [List.length_append, List.length_cons]
      omega
    have hget : pat[a.length] = (a ++ c :: b)[a.length] :=
      List.IsPrefix.getElem h _
    have hcc : (a ++ c :: b)[a.length] = c := by
      rw [List.getElem_append_right (Nat.le_refl _)]
      simp
    rw [hcc] at hget
    exact hget ▸ List.getElem_mem hlen

theorem containsSub_append_cons {pat a b : Str} {c : Char} (hc : c ∉ pat)
    (h : containsSub pat (a ++ c :: b) = true) :
    containsSub pat a = true ∨ containsSub pat b = true := by
  obtain ⟨i, hi⟩ := containsSub_iff.mp h
  by_cases hia : i ≤ a.length
  · rw [List.drop_append_eq_append_drop, Nat.sub_eq_zero_of_le hia,
      List.drop_zero] at hi
    exact Or.inl (containsSub_of_prefix_drop i (prefix_append_cons hc hi))
  · push_neg at hia
    rw [List.drop_append_eq_append_drop, List.drop_of_length_le (by omega),
      List.nil_append] at hi
    obtain ⟨k, hk⟩ : ∃ k, i - a.length = k + 1 := ⟨i - a.length - 1, by omega⟩
    rw [hk, List.drop_succ_cons] at hi
    exact Or.inr (containsSub_of_prefix_drop _ hi)

theorem containsSub_append_iff {pat a b : Str} {c : Char} (hc : c ∉ pat) :
    containsSub pat (a ++ c :: b) = true ↔
      containsSub pat a = true ∨ containsSub pat b = true := by
  constructor
  · exact containsSub_append_cons hc
  · rintro (h | h)
    · exact containsSub_append_left _ h
    · have := containsSub_append_right (a ++ [c]) h
      simpa [List.append_assoc] using this

theorem takeWhile_eq_self_of {α : Type} {p : α → Bool} {l : List α}
    (h : ∀ x ∈ l, p x = true) : l.takeWhile p = l := by
  induction l with
  | nil => rfl
  | cons a l ih =>
    rw [List.takeWhile_cons, if_pos (h a (by simp)),
      ih (fun x hx => h x (by simp [hx]))]

theorem dropWhile_head_not {α : Type} {p : α → Bool} {l : List α} {x : α}
    {xs : List α} (h : l.dropWhile p = x :: xs) : p x = false := by
  induction l with
  | nil => simp at h
  | cons a l ih =>
    rw [List.dropWhile_cons] at h
    by_cases hp : p a = true
    · rw [if_pos hp] at h
      exact ih h
    · rw [if_neg hp] at h
      cases h
      simpa using hp

/-! Claim theorems about the client mapping manager and the property diff. -/

theorem containsSub_self_append (d rest : Str) : containsSub d (d ++ rest) = true :=
  containsSub_of_prefix_drop 0 (by simp [List.prefix_append d rest])

theorem containsSub_mkMappingLine (client d : Str) :
    containsSub d (mkMappingLine client d) = true := by
  have h := containsSub_append_right ['\t']
    (containsSub_self_append d ('\t' :: '/' :: '/' :: client ++ '/' :: d.drop 2))
  simpa [mkMappingLine] using h

/-- C7: the client mapping operation is idempotent on the client spec
document.  For every client name, client-spec line list and list of depot
paths, applying the `_map_client_depots_core` document transformation twice
with the same depot paths yields the same line list as applying it once: the
second run removes exactly the mapping lines the first run appended (each
contains its own depot path as a substring) and re-appends identical lines
in the same order. -/
theorem map_depots_lines_idempotent (client : Str) (specLines : List Str)
    (depots : List Str) :
    map_depots_lines client (map_depots_lines client specLines depots) depots
      = map_depots_lines client specLines depots := by
  unfold map_depots_lines
  rw [List.filter_append]
  have h2 : (depots.map (mkMappingLine client)).filter
      (fun l => !depots.any (fun d => containsSub d l)) = [] := by
    rw [List.filter_eq_nil_iff]
    intro m hm
    obtain ⟨d, hd, rfl⟩ := List.mem_map.mp hm
    have : depots.any (fun x => containsSub x (mkMappingLine client d)) = true :=
      List.any_eq_true.mpr ⟨d, hd, containsSub_mkMappingLine client d⟩
    simp [this]
  rw [h2, List.append_nil, List.filter_filter]
  congr 1
  apply List.filter_congr
  intro x _
  cases depots.any (fun d => containsSub d x) <;> rfl

/-- C8: the property diff is symmetric in the keys it reports.  For any two
property dictionaries of a category, `compare_property_dict` applied one way
contains a record for a key exactly when applying it the other way contains
the record for the same key with the two reported values swapped. -/
theorem compare_property_dict_symm (d1 d2 : PropMap) (cat k v1 v2 : Str) :
    (cat, k, v1, v2) ∈ compare_property_dict d1 d2 cat ↔
      (cat, k, v2, v1) ∈ compare_property_dict d2 d1 cat := by
  have key : ∀ (da db : PropMap) (va vb : Str),
      ((cat, k, va, vb) ∈ compare_property_dict da db cat ↔
        ((k ∈ da.map Prod.fst ∨ k ∈ db.map Prod.fst) ∧
          va = (lookupKey da k).getD missingSentinel ∧
          vb = (lookupKey db k).getD missingSentinel ∧ va ≠ vb)) := by
    intro da db va vb
    simp only [compare_property_dict, List.mem_filterMap]
    constructor
    · rintro ⟨k', hk', hf⟩
      split at hf
      · rename_i hne
        rw [Option.some_inj, Prod.mk.injEq, Prod.mk.injEq, Prod.mk.injEq] at hf
        obtain ⟨-, hkk, hva, hvb⟩ := hf
        subst hkk
        refine ⟨?_, hva.symm, hvb.symm, by rw [← hva, ← hvb]; exact hne⟩
        simpa [List.mem_append] using List.mem_dedup.mp hk'
      · cases hf
    · rintro ⟨hk, hva, hvb, hne⟩
      refine ⟨k, List.mem_dedup.mpr (by simpa [List.mem_append] using hk), ?_⟩
      rw [if_pos (by rw [← hva, ← hvb]; exact hne)]
      rw [← hva, ← hvb]
  rw [key d1 d2 v1 v2, key d2 d1 v2 v1]
  constructor
  · rintro ⟨hk, h1, h2, hne⟩
    exact ⟨hk.symm, h2, h1, fun h => hne h.symm⟩
  · rintro ⟨hk, h1, h2, hne⟩
    exact ⟨hk.symm, h2, h1, fun h => hne h.symm⟩

/-- C10: `update_properties_in_file` called with an empty inner mapping for
every category (`properties_dict = {"LMKD": {}, "Chimera": {}}`) leaves the
line list completely unchanged and returns `(True, None)`: the truthiness
guards on `properties_dict["LMKD"]` and `properties_dict["Chimera"]` skip
both block rewrites, so an empty category mapping means "do nothing" and no
property of a category can be deleted through this interface by emptying the
category. -/
theorem update_properties_in_file_empty_categories (lines : List Str) :
    update_properties_in_file lines [("LMKD".toList, []), ("Chimera".toList, [])]
      = (lines, (true, none)) := by
  rfl

/-! Claim theorem about block extraction. -/

/-- C9: for every line list, `extract_block`'s result, when it is non-empty,
begins with the first line whose stripped content equals the start header,
contains after that first line no line whose stripped content is in the
end-header candidate set (in particular the terminating header line is
excluded), and extends to the end of the input when no terminating header
follows the start header; when the start header is absent the result is
empty. -/
theorem extract_block_spec (lines : List Str) (sh : Str) (nhl : List Str) :
    ((∀ l ∈ lines, pstrip l ≠ sh) → extract_block lines sh nhl = []) ∧
    (∀ h t, extract_block lines sh nhl = h :: t →
      pstrip h = sh ∧ ∃ pre suf, lines = pre ++ h :: suf ∧ ∀ l ∈ pre, pstrip l ≠ sh) ∧
    (∀ l ∈ (extract_block lines sh nhl).drop 1, pstrip l ∉ nhl) ∧
    (∀ pre h suf, lines = pre ++ h :: suf → (∀ l ∈ pre, pstrip l ≠ sh) →
      pstrip h = sh → (∀ l ∈ suf, pstrip l ∉ nhl) →
      extract_block lines sh nhl = h :: suf) := by
  refine ⟨?_, ?_, ?_, ?_⟩
  · intro habs
    unfold extract_block
    rw [List.dropWhile_eq_nil_iff.mpr (fun x hx => by
      simp [isStartLine, habs x hx])]
  · intro h t hext
    unfold extract_block at hext
    cases hdw : lines.dropWhile (fun l => !isStartLine sh l) with
    | nil => rw [hdw] at hext; cases hext
    | cons h' t' =>
      rw [hdw] at hext
      have e1 : h' = h := by
        have := congrArg List.head? hext
        simpa using this
      rw [e1] at hdw
      have hstart : pstrip h = sh := by
        have := dropWhile_head_not hdw
        simpa [isStartLine] using this
      refine ⟨hstart, lines.takeWhile (fun l => !isStartLine sh l), t', ?_, ?_⟩
      · rw [← hdw, List.takeWhile_append_dropWhile]
      · intro l hl
        have := List.mem_takeWhile_imp hl
        simpa [isStartLine] using this
  · intro l hl
    unfold extract_block at hl
    cases hdw : lines.dropWhile (fun l => !isStartLine sh l) with
    | nil => rw [hdw] at hl; simp at hl
    | cons h' t' =>
      rw [hdw] at hl
      simp only [List.drop_succ_cons, List.drop_zero] at hl
      have := List.mem_takeWhile_imp hl
      simpa [isEndLine] using this
  · intro pre h suf hdecomp hpre hh hsuf
    unfold extract_block
    have hdw : lines.dropWhile (fun l => !isStartLine sh l) = h :: suf := by
      rw [hdecomp, List.dropWhile_append]
      rw [List.dropWhile_eq_nil_iff.mpr (fun x hx => by simp [isStartLine, hpre x hx])]
      simp only [List.isEmpty_nil, if_true]
      rw [List.dropWhile_cons, if_neg (by simp [isStartLine, hh])]
    rw [hdw]
    show h :: suf.takeWhile (fun l => !isEndLine nhl l) = h :: suf
    rw [takeWhile_eq_self_of (fun x hx => by simp [isEndLine, hsuf x hx])]

/-! Facts about `findOcc` and `pySplit` needed for the filelog parser. -/

theorem isPrefixOf_append_self (p t : Str) : p.isPrefixOf (p ++ t) = true := by
  rw [List.isPrefixOf_iff_prefix]
  exact List.prefix_append _ _

theorem findOcc_eq_none_of_not_contains {pat s : Str}
    (h : containsSub pat s = false) : findOcc pat s = none := by
  unfold containsSub at h
  cases hf : findOcc pat s
  · rfl
  · rw [hf] at h
    cases h

theorem pySplitAux_of_none {pat s : Str} (h : findOcc pat s = none) (fuel : Nat) :
    pySplitAux pat fuel s = [s] := by
  cases fuel with
  | zero => rfl
  | succ n =>
    unfold pySplitAux
    rw [h]

theorem findOcc_append_of_notMem {pat a : Str} {ph : Char} {pt : Str}
    (hpat : pat = ph :: pt) (ha : ∀ c ∈ a, c ≠ ph) (s : Str) :
    findOcc pat (a ++ s) = (findOcc pat s).map (· + a.length) := by
  induction a with
  | nil =>
    simp only [List.nil_append, List.length_nil]
    cases findOcc pat s <;> simp
  | cons c a ih =>
    have hc : c ≠ ph := ha c (by simp)
    rw [List.cons_append]
    have hstep : findOcc pat (c :: (a ++ s))
        = if pat.isPrefixOf (c :: (a ++ s)) then some 0
          else (findOcc pat (a ++ s)).map (· + 1) := rfl
    rw [hstep, if_neg (fun hpre => by
      rw [hpat, List.isPrefixOf_iff_prefix, List.cons_prefix_cons] at hpre
      exact (Ne.symm hc) hpre.1)]
    rw [ih (fun x hx => ha x (by simp [hx]))]
    cases findOcc pat s with
    | none => rfl
    | some i =>
      show some (i + a.length + 1) = some (i + (a.length + 1))
      rw [Nat.add_assoc]

theorem pySplit_marker {rest : Str}
    (hno : containsSub "from ".toList rest = false) :
    pySplit "from ".toList (branchFromMarker ++ rest)
      = ["... ... branch ".toList, rest] := by
  have hm : branchFromMarker = "... ... branch ".toList ++ "from ".toList := by decide
  have hocc : findOcc "from ".toList (branchFromMarker ++ rest) = some 15 := by
    rw [hm, List.append_assoc,
      @findOcc_append_of_notMem _ _ 'f' "rom ".toList (by decide)
        (by decide) _,
      findOcc_eq_some_zero (isPrefixOf_append_self _ _)]
    decide
  have htake : (branchFromMarker ++ rest).take 15 = "... ... branch ".toList := by
    rw [hm, List.append_assoc]
    exact List.take_left' (by decide)
  have hdrop : (branchFromMarker ++ rest).drop (15 + "from ".toList.length) = rest :=
    List.drop_left' (by decide)
  unfold pySplit pySplitAux
  rw [hocc]
  show (branchFromMarker ++ rest).take 15
      :: pySplitAux "from ".toList (branchFromMarker ++ rest).length
        ((branchFromMarker ++ rest).drop (15 + "from ".toList.length))
    = ["... ... branch ".toList, rest]
  rw [htake, hdrop, pySplitAux_of_none (findOcc_eq_none_of_not_contains hno)]

/-! Character-level facts about stripping and rendered property lines,
used for the property-block engine claims. -/

theorem lstrip_idem (s : Str) : lstrip (lstrip s) = lstrip s := by
  unfold lstrip
  cases h : s.dropWhile isWs with
  | nil => rfl
  | cons c t =>
    rw [List.dropWhile_cons, if_neg (by simp [dropWhile_head_not h])]

theorem rdropWhile_append_cons {p : Char → Bool} {c : Char} (hc : p c = false)
    (a z : Str) : (a ++ c :: z).rdropWhile p = a ++ c :: z.rdropWhile p := by
  show ((a ++ c :: z).reverse.dropWhile p).reverse
      = a ++ c :: (z.reverse.dropWhile p).reverse
  rw [List.reverse_append, List.reverse_cons, List.append_assoc,
    List.singleton_append, List.dropWhile_append]
  split
  · rename_i hemp
    rw [List.isEmpty_iff] at hemp
    rw [hemp, List.dropWhile_cons, if_neg (by simp [hc])]
    simp
  · simp

theorem dropWhile_append_of_forall {p : Char → Bool} {a : Str}
    (h : ∀ x ∈ a, p x = true) (z : Str) :
    (a ++ z).dropWhile p = z.dropWhile p := by
  induction a with
  | nil => rfl
  | cons c t ih =>
    rw [List.cons_append, List.dropWhile_cons, if_pos (h c (by simp))]
    exact ih (fun x hx => h x (by simp [hx]))

theorem takeWhile_append_cons {p : Char → Bool} {a : Str} {c : Char}
    (h : ∀ x ∈ a, p x = true) (hc : p c = false) (z : Str) :
    (a ++ c :: z).takeWhile p = a := by
  induction a with
  | nil => rw [List.nil_append, List.takeWhile_cons, if_neg (by simp [hc])]
  | cons d t ih =>
    rw [List.cons_append, List.takeWhile_cons, if_pos (h d (by simp)),
      ih (fun x hx => h x (by simp [hx]))]

theorem pstrip_head_not_ws {k : Str} {c : Char} (hk : pstrip k = k)
    (hc : k.head? = some c) : isWs c = false := by
  have h2 : (rstrip k).dropWhile isWs = k := by
    have hh := hk
    unfold pstrip lstrip at hh
    exact hh
  cases hkk : k with
  | nil => rw [hkk] at hc; cases hc
  | cons d t =>
    rw [hkk] at hc h2
    have hd : isWs d = false := dropWhile_head_not h2
    have hdc : d = c := by
      simp only [List.head?_cons, Option.some_inj] at hc
      exact hc
    rwa [hdc] at hd

theorem pstrip_cons_of_not_ws {c : Char} (hc : isWs c = false) (t : Str) :
    pstrip (c :: t) = c :: rstrip t := by
  unfold pstrip
  have h1 : rstrip (c :: t) = c :: rstrip t := by
    have h : ([] ++ c :: t).rdropWhile isWs = [] ++ c :: t.rdropWhile isWs :=
      rdropWhile_append_cons hc [] t
    simpa [rstrip] using h
  rw [h1]
  unfold lstrip
  rw [List.dropWhile_cons, if_neg (by simp [hc])]

theorem rstrip_pstrip (s : Str) : rstrip (pstrip s) = pstrip s := by
  by_cases h : pstrip s = []
  · rw [h]
    rfl
  · unfold rstrip
    rw [List.rdropWhile_eq_self_iff]
    intro hl
    have hsuf : pstrip s <:+ rstrip s := by
      unfold pstrip lstrip
      exact List.dropWhile_suffix _
    obtain ⟨w, hw⟩ := hsuf
    have hrne : rstrip s ≠ [] := by
      intro hr
      rw [hr] at hw
      exact h (List.append_eq_nil.mp hw).2
    have hq : (pstrip s).getLast? = (rstrip s).getLast? := by
      conv_rhs => rw [← hw]
      rw [List.getLast?_append_of_ne_nil _ hl]
    have h1 := List.getLast?_eq_getLast_of_ne_nil hl
    have h2 := List.getLast?_eq_getLast_of_ne_nil hrne
    have heq : (pstrip s).getLast hl = (rstrip s).getLast hrne := by
      rw [h1, h2] at hq
      exact Option.some_inj.mp hq
    rw [heq]
    have hnot := List.rdropWhile_last_not isWs s hrne
    simpa using hnot

theorem lstrip_pstrip (s : Str) : lstrip (pstrip s) = pstrip s := by
  unfold pstrip
  exact lstrip_idem _

theorem pstrip_idem (s : Str) : pstrip (pstrip s) = pstrip s := by
  show lstrip (rstrip (pstrip s)) = pstrip s
  rw [rstrip_pstrip]
  exact lstrip_pstrip s

theorem pstrip_rendered {ind k : Str} (hind : ∀ c ∈ ind, isWs c = true)
    (hk : KeyShape k) (w : Str) :
    pstrip (ind ++ k ++ '=' :: w) = k ++ '=' :: rstrip w := by
  have h1 : rstrip (ind ++ k ++ '=' :: w) = ind ++ k ++ '=' :: rstrip w := by
    have h : ((ind ++ k) ++ '=' :: w).rdropWhile isWs
        = (ind ++ k) ++ '=' :: w.rdropWhile isWs :=
      rdropWhile_append_cons (by decide) (ind ++ k) w
    unfold rstrip
    exact h
  show lstrip (rstrip (ind ++ k ++ '=' :: w)) = k ++ '=' :: rstrip w
  rw [h1]
  unfold lstrip
  rw [List.append_assoc, dropWhile_append_of_forall hind]
  cases hkk : k with
  | nil =>
    rw [List.nil_append, List.dropWhile_cons, if_neg (by decide)]
  | cons c t =>
    have hc : isWs c = false := pstrip_head_not_ws hk.2.1 (by rw [hkk]; rfl)
    rw [List.cons_append, List.dropWhile_cons, if_neg (by simp [hc])]

theorem rendered_head_ne_hash {k : Str} (hk3 : k.head? ≠ some '#') (z : Str) :
    (k ++ '=' :: z).head? ≠ some '#' := by
  cases k with
  | nil =>
    intro h
    simp only [List.nil_append, List.head?_cons, Option.some_inj] at h
    cases h
  | cons c t =>
    intro h
    simp only [List.cons_append, List.head?_cons, Option.some_inj] at h
    exact hk3 (by rw [h]; rfl)

theorem lineKey_rendered_eq {ind k : Str} (hind : ∀ c ∈ ind, isWs c = true)
    (hk : KeyShape k) (w : Str)
    (hnp : containsSub productMarker (k ++ '=' :: rstrip w) = false) :
    lineKey (ind ++ k ++ '=' :: w) = some k := by
  unfold lineKey
  rw [pstrip_rendered hind hk w]
  rw [if_neg (by simp), if_neg (rendered_head_ne_hash hk.2.2 _),
    if_neg (by simp [hnp]), if_pos (by simp)]
  have h2 : rstripSet [' ', '\\'] (k ++ '=' :: rstrip w)
      = k ++ '=' :: rstripSet [' ', '\\'] (rstrip w) := by
    unfold rstripSet
    exact rdropWhile_append_cons (by decide) k (rstrip w)
  rw [h2]
  have h3 : beforeChar '=' (k ++ '=' :: rstripSet [' ', '\\'] (rstrip w)) = k := by
    unfold beforeChar
    exact takeWhile_append_cons (fun x hx => by
      simp only [decide_eq_true_eq]
      exact fun hcontra => hk.1 (hcontra ▸ hx)) (by simp) _
  rw [h3, hk.2.1]

theorem lineKey_rendered_cases {ind k : Str} (hind : ∀ c ∈ ind, isWs c = true)
    (hk : KeyShape k) (w : Str) :
    lineKey (ind ++ k ++ '=' :: w) = none
      ∨ lineKey (ind ++ k ++ '=' :: w) = some k := by
  by_cases hnp : containsSub productMarker (k ++ '=' :: rstrip w) = false
  · exact Or.inr (lineKey_rendered_eq hind hk w hnp)
  · left
    unfold lineKey
    rw [pstrip_rendered hind hk w]
    rw [if_neg (by simp), if_neg (rendered_head_ne_hash hk.2.2 _),
      if_pos (by simpa using hnp)]

/-! Facts about the association-list dictionary model. -/

theorem lookupKey_eq_none_iff {β : Type} {m : AList β} {k : Str} :
    lookupKey m k = none ↔ k ∉ m.map Prod.fst := by
  induction m with
  | nil => simp [lookupKey]
  | cons p rest ih =>
    obtain ⟨k', v⟩ := p
    simp only [lookupKey, List.map_cons, List.mem_cons]
    by_cases h : k' = k
    · rw [if_pos h]
      constructor
      · intro hc
        cases hc
      · intro hn
        exact absurd (Or.inl h.symm) hn
    · simp only [if_neg h, ih]
      constructor
      · intro hn
        rintro (h1 | h2)
        · exact h h1.symm
        · exact hn h2
      · intro hn h2
        exact hn (Or.inr h2)

theorem hasKey_iff {β : Type} {m : AList β} {k : Str} :
    hasKey m k = true ↔ k ∈ m.map Prod.fst := by
  unfold hasKey
  rw [Option.isSome_iff_ne_none, Ne, lookupKey_eq_none_iff]
  exact not_not

theorem lookupKey_some_mem {β : Type} {m : AList β} {k : Str} {v : β}
    (h : lookupKey m k = some v) : (k, v) ∈ m := by
  induction m with
  | nil => cases h
  | cons p rest ih =>
    obtain ⟨k', v'⟩ := p
    simp only [lookupKey] at h
    by_cases hk : k' = k
    · rw [if_pos hk] at h
      obtain rfl : v' = v := Option.some_inj.mp h
      subst hk
      simp
    · rw [if_neg hk] at h
      exact List.mem_cons_of_mem _ (ih h)

theorem mem_eraseKey {β : Type} {m : AList β} {k : Str} {p : Str × β}
    (h : p ∈ eraseKey m k) : p ∈ m := List.mem_of_mem_filter h

theorem keys_eraseKey_subset {β : Type} {m : AList β} {k k' : Str}
    (h : k' ∈ (eraseKey m k).map Prod.fst) : k' ∈ m.map Prod.fst := by
  obtain ⟨p, hp, rfl⟩ := List.mem_map.mp h
  exact List.mem_map.mpr ⟨p, mem_eraseKey hp, rfl⟩

theorem mem_keys_eraseKey {β : Type} {m : AList β} {k k' : Str} (hne : k' ≠ k)
    (h : k' ∈ m.map Prod.fst) : k' ∈ (eraseKey m k).map Prod.fst := by
  obtain ⟨p, hp, rfl⟩ := List.mem_map.mp h
  refine List.mem_map.mpr ⟨p, ?_, rfl⟩
  exact List.mem_filter.mpr ⟨hp, by simpa using hne⟩

theorem lookupKey_eraseKey_ne {β : Type} {m : AList β} {k k' : Str}
    (hne : k' ≠ k) : lookupKey (eraseKey m k) k' = lookupKey m k' := by
  induction m with
  | nil => rfl
  | cons p rest ih =>
    obtain ⟨k₀, v₀⟩ := p
    by_cases h0 : k₀ = k
    · have he : eraseKey ((k₀, v₀) :: rest) k = eraseKey rest k := by
        unfold eraseKey
        rw [List.filter_cons, if_neg (by simp [h0])]
      rw [he, ih]
      simp only [lookupKey]
      rw [if_neg (fun hh : k₀ = k' => hne (hh ▸ h0))]
    · have he : eraseKey ((k₀, v₀) :: rest) k = (k₀, v₀) :: eraseKey rest k := by
        unfold eraseKey
        rw [List.filter_cons, if_pos (by simpa using h0)]
      rw [he]
      simp only [lookupKey]
      by_cases h1 : k₀ = k'
      · rw [if_pos h1, if_pos h1]
      · rw [if_neg h1, if_neg h1, ih]

/-! Facts about parsed keys: every key produced by the parsing or updating
code is strip-stable, `=`-free, does not start with `#`, and does not
mention `PRODUCT_PROPERTY_OVERRIDES`. -/

theorem pstrip_infix_self (x : Str) : pstrip x <:+: x := by
  have h1 : pstrip x <:+ rstrip x := by
    unfold pstrip lstrip
    exact List.dropWhile_suffix _
  have h2 : rstrip x <+: x := List.rdropWhile_prefix _ _
  exact h1.isInfix.trans h2.isInfix

theorem containsSub_mono {pat x y : Str} (hxy : x <:+: y)
    (h : containsSub pat x = true) : containsSub pat y = true := by
  obtain ⟨i, hi⟩ := containsSub_iff.mp h
  obtain ⟨u, w, huw⟩ := hxy
  refine containsSub_iff.mpr ⟨u.length + i, ?_⟩
  rw [← huw, List.append_assoc, List.drop_append_eq_append_drop,
    List.drop_of_length_le (Nat.le_add_right _ _), List.nil_append,
    Nat.add_comm u.length i, Nat.add_sub_cancel, List.drop_append_eq_append_drop]
  exact hi.trans (List.prefix_append _ _)

theorem not_containsSub_of_infix {pat x y : Str} (hxy : x <:+: y)
    (h : containsSub pat y = false) : containsSub pat x = false := by
  cases hx : containsSub pat x
  · rfl
  · rw [containsSub_mono hxy hx] at h
    cases h

/-- Shape facts for a key `pstrip (beforeChar '=' u)` extracted from a
stripped, non-comment, override-free line `s`, where `u` is a prefix of
`s`. -/
theorem parsedKey_shape {s u : Str} (hu : u <+: s) (hs : pstrip s = s)
    (hhash : s.head? ≠ some '#')
    (hprod : containsSub productMarker s = false) :
    KeyShape (pstrip (beforeChar '=' u))
      ∧ containsSub productMarker (pstrip (beforeChar '=' u)) = false := by
  have hwpre : beforeChar '=' u <+: u := List.takeWhile_prefix _
  have hwpres : beforeChar '=' u <+: s := hwpre.trans hu
  have hinfix : pstrip (beforeChar '=' u) <:+: s :=
    (pstrip_infix_self _).trans hwpres.isInfix
  have hnp : containsSub productMarker (pstrip (beforeChar '=' u)) = false :=
    not_containsSub_of_infix hinfix hprod
  refine ⟨⟨?_, pstrip_idem _, ?_⟩, hnp⟩
  · intro hmem
    have h1 : '=' ∈ beforeChar '=' u := (pstrip_infix_self _).subset hmem
    have h2 := List.mem_takeWhile_imp h1
    simp at h2
  · cases hw : beforeChar '=' u with
    | nil => exact fun hc => Option.noConfusion hc
    | cons c t =>
      have hcs : s.head? = some c := by
        obtain ⟨z, hz⟩ := hwpres
        rw [hw] at hz
        rw [← hz, List.cons_append]
        rfl
      have hcn : isWs c = false := pstrip_head_not_ws hs hcs
      rw [pstrip_cons_of_not_ws hcn]
      intro hcontra
      simp only [List.head?_cons, Option.some_inj] at hcontra
      rw [hcontra] at hcs
      exact hhash hcs

/-! Facts about the override-block analysis and its alignment with the
update loop. -/

theorem getD_drop (xs : List Str) (n j : Nat) :
    (xs.drop n).getD j [] = xs.getD (n + j) [] := by
  simp [List.getD_eq_getElem?_getD, List.getElem?_drop]

theorem keys_eraseKey_ne {β : Type} {m : AList β} {k k' : Str}
    (h : k' ∈ (eraseKey m k).map Prod.fst) : k' ≠ k := by
  obtain ⟨p, hp, rfl⟩ := List.mem_map.mp h
  have := (List.mem_filter.mp hp).2
  simpa using this

theorem analyzeGo_starts : ∀ (ls : List Str) (i skip : Nat) (b : OvBlock),
    b ∈ analyzeGo ls i skip →
    i ≤ b.start ∧ b.start - i < ls.length
      ∧ isOvStart (ls.getD (b.start - i) []) = true := by
  intro ls i skip
  induction ls, i, skip using analyzeGo.induct with
  | case1 i skip =>
    intro b hb
    simp only [analyzeGo, List.not_mem_nil] at hb
  | case2 l rest i skip ih =>
    intro b hb
    simp only [analyzeGo] at hb
    obtain ⟨h1, h2, h3⟩ := ih b hb
    refine ⟨by omega, by simp only [List.length_cons]; omega, ?_⟩
    have e : b.start - i = (b.start - (i + 1)) + 1 := by omega
    rw [e, List.getD_cons_succ]
    exact h3
  | case3 l rest i hov ih =>
    intro b hb
    simp only [analyzeGo, hov, if_true] at hb
    rcases List.mem_cons.mp hb with hb1 | hb2
    · subst hb1
      refine ⟨Nat.le_refl _, by simp, ?_⟩
      simpa using hov
    · obtain ⟨h1, h2, h3⟩ := ih b hb2
      refine ⟨by omega, by simp only [List.length_cons]; omega, ?_⟩
      have e : b.start - i = (b.start - (i + 1)) + 1 := by omega
      rw [e, List.getD_cons_succ]
      exact h3
  | case4 l rest i hov ih =>
    intro b hb
    simp only [analyzeGo, hov, if_false] at hb
    obtain ⟨h1, h2, h3⟩ := ih b hb
    refine ⟨by omega, by simp only [List.length_cons]; omega, ?_⟩
    have e : b.start - i = (b.start - (i + 1)) + 1 := by omega
    rw [e, List.getD_cons_succ]
    exact h3

theorem analyzeBlocks_starts (ls : List Str) (i : Nat) (b : OvBlock)
    (hb : b ∈ analyzeBlocks ls i) :
    i ≤ b.start ∧ b.start - i < ls.length
      ∧ isOvStart (ls.getD (b.start - i) []) = true :=
  analyzeGo_starts ls i 0 b hb

theorem startsAreOv_init (ls : List Str) (i : Nat) :
    StartsAreOv (analyzeBlocks ls i) ls i :=
  fun b hb _ _ => (analyzeBlocks_starts ls i b hb).2.2

theorem startsAreOv_tail {blocks : List OvBlock} {l : Str} {rest : List Str}
    {i : Nat} (h : StartsAreOv blocks (l :: rest) i) :
    StartsAreOv blocks rest (i + 1) := by
  intro b hb hge hlt
  have h2 := h b hb (by omega) (by simp only [List.length_cons]; omega)
  have e : b.start - i = (b.start - (i + 1)) + 1 := by omega
  rw [e, List.getD_cons_succ] at h2
  exact h2

theorem startsAreOv_drop {blocks : List OvBlock} {l : Str} {rest : List Str}
    {i : Nat} (n : Nat) (h : StartsAreOv blocks (l :: rest) i) :
    StartsAreOv blocks (rest.drop n) (i + 1 + n) := by
  intro b hb hge hlt
  rw [List.length_drop] at hlt
  have h2 := h b hb (by omega) (by simp only [List.length_cons]; omega)
  have e : b.start - i = (n + (b.start - (i + 1 + n))) + 1 := by omega
  rw [e, List.getD_cons_succ] at h2
  rwa [getD_drop]

theorem collectOvProps_spec : ∀ (body : List Str) (rem : PropMap),
    (∀ p ∈ (collectOvProps body rem).1,
        lookupKey rem p.1 = some p.2 ∧ p.1 ∈ rem.map Prod.fst)
      ∧ (∀ p ∈ (collectOvProps body rem).2, p ∈ rem)
      ∧ (∀ k ∈ rem.map Prod.fst,
          k ∈ (collectOvProps body rem).1.map Prod.fst
            ∨ k ∈ (collectOvProps body rem).2.map Prod.fst) := by
  intro body rem
  induction body, rem using collectOvProps.induct with
  | case1 rem =>
    refine ⟨?_, ?_, ?_⟩
    · intro p hp
      simp only [collectOvProps, List.not_mem_nil] at hp
    · intro p hp
      simpa only [collectOvProps] using hp
    · intro k hk
      exact Or.inr hk
  | case2 l rest rem h ih =>
    simpa only [collectOvProps, if_pos h] using ih
  | case3 l rest rem h1 h2 h3 h4 ih =>
    simp only [collectOvProps, if_neg h1, if_pos h2, if_pos h3, if_pos h4]
    obtain ⟨ih1, ih2, ih3⟩ := ih
    obtain ⟨v, hv⟩ := Option.isSome_iff_exists.mp h4
    refine ⟨?_, ?_, ?_⟩
    · intro p hp
      rcases List.mem_cons.mp hp with hp1 | hp2
      · subst hp1
        exact ⟨by simp [hv], hasKey_iff.mp h4⟩
      · obtain ⟨hl1, hl2⟩ := ih1 p hp2
        have hne : p.1 ≠ _ := keys_eraseKey_ne hl2
        exact ⟨by rw [← lookupKey_eraseKey_ne hne]; exact hl1,
          keys_eraseKey_subset hl2⟩
    · intro p hp
      exact mem_eraseKey (ih2 p hp)
    · intro k' hk'
      by_cases hkk : k' = pstrip (beforeChar '=' (ovContent (pstrip l)))
      · exact Or.inl (by simp [hkk])
      · rcases ih3 k' (mem_keys_eraseKey hkk hk') with hh1 | hh1
        · exact Or.inl (by simp [hh1])
        · exact Or.inr hh1
  | case4 l rest rem h1 h2 h3 h4 ih =>
    simpa only [collectOvProps, if_neg h1, if_pos h2, if_pos h3, if_neg h4] using ih
  | case5 l rest rem h1 h2 h3 ih =>
    simpa only [collectOvProps, if_neg h1, if_pos h2, if_neg h3] using ih
  | case6 l rest rem h1 h2 ih =>
    simpa only [collectOvProps, if_neg h1, if_neg h2] using ih

theorem renderOvProps_shape {ind : Str} : ∀ (m : PropMap),
    ∀ l ∈ renderOvProps ind m, ∃ p ∈ m, ∃ w,
      (w = ['\n'] ∨ w = [' ', '\\', '\n']) ∧ l = ind ++ p.1 ++ '=' :: (p.2 ++ w) := by
  intro m
  induction m with
  | nil => intro l hl; cases hl
  | cons p rest ih =>
    obtain ⟨k, v⟩ := p
    cases rest with
    | nil =>
      intro l hl
      rcases List.mem_singleton.mp hl with rfl
      exact ⟨(k, v), by simp, ['\n'], Or.inl rfl, rfl⟩
    | cons q rest2 =>
      intro l hl
      rcases List.mem_cons.mp hl with h1 | h2
      · exact ⟨(k, v), by simp, [' ', '\\', '\n'], Or.inr rfl, h1⟩
      · obtain ⟨p', hp', w, hw, hl'⟩ := ih l h2
        exact ⟨p', List.mem_cons_of_mem _ hp', w, hw, hl'⟩

theorem renderOvProps_mem {ind : Str} : ∀ (m : PropMap) (p : Str × Str),
    p ∈ m → ∃ w, (w = ['\n'] ∨ w = [' ', '\\', '\n'])
      ∧ (ind ++ p.1 ++ '=' :: (p.2 ++ w)) ∈ renderOvProps ind m := by
  intro m
  induction m with
  | nil => intro p hp; cases hp
  | cons q rest ih =>
    obtain ⟨k, v⟩ := q
    cases rest with
    | nil =>
      intro p hp
      rcases List.mem_singleton.mp hp with rfl
      exact ⟨['\n'], Or.inl rfl, by simp [renderOvProps]⟩
    | cons q2 rest2 =>
      intro p hp
      rcases List.mem_cons.mp hp with h1 | h2
      · subst h1
        exact ⟨[' ', '\\', '\n'], Or.inr rfl, List.mem_cons_self _ _⟩
      · obtain ⟨w, hw, hmem⟩ := ih p h2
        exact ⟨w, hw, List.mem_cons_of_mem _ hmem⟩

theorem ovIndent_ws (body : List Str) : ∀ c ∈ ovIndent body, isWs c = true := by
  unfold ovIndent
  split
  · intro c hc
    have hall : ∀ c ∈ "    ".toList, isWs c = true := by decide
    exact hall c hc
  · intro c hc
    exact List.mem_takeWhile_imp hc

theorem get_default_indentation_ws (ls : List Str) :
    ∀ c ∈ get_default_indentation ls, isWs c = true := by
  unfold get_default_indentation
  split
  · intro c hc
    have hall : ∀ c ∈ "    ".toList, isWs c = true := by decide
    exact hall c hc
  · intro c hc
    exact List.mem_takeWhile_imp hc

theorem containsSub_append_false {pat a b : Str} {c : Char} (hc : c ∉ pat)
    (ha : containsSub pat a = false) (hb : containsSub pat b = false) :
    containsSub pat (a ++ c :: b) = false := by
  rw [Bool.eq_false_iff]
  intro h
  rcases (containsSub_append_iff hc).mp h with h1 | h1
  · rw [ha] at h1; cases h1
  · rw [hb] at h1; cases h1

theorem markerFree_nil : containsSub productMarker [] = false := by decide

theorem markerFree_append_tail {v w : Str}
    (hv : containsSub productMarker v = false)
    (hw : w = ['\n'] ∨ w = [' ', '\\', '\n']) :
    containsSub productMarker (v ++ w) = false := by
  rcases hw with rfl | rfl
  · exact containsSub_append_false (by decide) hv markerFree_nil
  · exact containsSub_append_false (by decide) hv (by decide)

theorem markerFree_hash_tail {v tr : Str}
    (hv : containsSub productMarker v = false)
    (htr : containsSub productMarker tr = false) :
    containsSub productMarker (v ++ ((' ' :: '#' :: tr) ++ ['\n'])) = false := by
  have h2 : containsSub productMarker (tr ++ ['\n']) = false :=
    containsSub_append_false (by decide) htr markerFree_nil
  have h3 : containsSub productMarker ([] ++ '#' :: (tr ++ ['\n'])) = false :=
    containsSub_append_false (by decide) markerFree_nil h2
  exact containsSub_append_false (by decide) hv h3

theorem afterChar_suffix (c : Char) (s : Str) : afterChar c s <:+ s :=
  (List.drop_suffix 1 (s.dropWhile (· ≠ c))).trans (List.dropWhile_suffix _)

theorem parseValue_infix_self (s : Str) : parseValue s <:+: s := by
  have h1 : rstripSet [' ', '\x5c'] s <+: s := List.rdropWhile_prefix _ _
  have h2 : afterChar '=' (rstripSet [' ', '\x5c'] s)
      <:+ rstripSet [' ', '\x5c'] s := afterChar_suffix _ _
  have hbase : pstrip (afterChar '=' (rstripSet [' ', '\x5c'] s)) <:+: s :=
    (pstrip_infix_self _).trans (h2.isInfix.trans h1.isInfix)
  unfold parseValue
  split
  · exact ((pstrip_infix_self _).trans
      (List.takeWhile_prefix _).isInfix).trans hbase
  · exact hbase

theorem mem_setKey {β : Type} {m : AList β} {k : Str} {v : β} {p : Str × β}
    (h : p ∈ setKey m k v) : (p.1 = k ∧ p.2 = v) ∨ p ∈ m := by
  unfold setKey at h
  split at h
  · obtain ⟨q, hq, he⟩ := List.mem_map.mp h
    by_cases hk : q.1 = k
    · rw [if_pos hk] at he
      left
      rw [← he]
      exact ⟨hk, rfl⟩
    · rw [if_neg hk] at he
      right
      rwa [← he]
  · rcases List.mem_append.mp h with h1 | h1
    · right; exact h1
    · left
      rcases List.mem_singleton.mp h1 with rfl
      exact ⟨rfl, rfl⟩

theorem parse_fold_shape : ∀ (blk : List Str) (props : PropMap),
    (∀ p ∈ props, KeyShape p.1 ∧ containsSub productMarker p.1 = false
      ∧ containsSub productMarker p.2 = false) →
    ∀ p ∈ blk.foldl parseStep props,
      KeyShape p.1 ∧ containsSub productMarker p.1 = false
        ∧ containsSub productMarker p.2 = false := by
  intro blk
  induction blk with
  | nil => intro props hp p hmem; exact hp p hmem
  | cons line rest ih =>
    intro props hp p hmem
    rw [List.foldl_cons] at hmem
    refine ih (parseStep props line) ?_ p hmem
    intro q hq
    unfold parseStep at hq
    split_ifs at hq with h1 h2 h3 h4
    · exact hp q hq
    · exact hp q hq
    · exact hp q hq
    · rcases mem_setKey hq with ⟨hk, hv⟩ | hq2
      · have h3' : containsSub productMarker (pstrip line) = false :=
          Bool.eq_false_iff.mpr h3
        have hu : rstripSet [' ', '\x5c'] (pstrip line) <+: pstrip line :=
          List.rdropWhile_prefix _ _
        have hkey := parsedKey_shape hu (pstrip_idem _) h2 h3'
        have hval : containsSub productMarker (parseValue (pstrip line)) = false :=
          not_containsSub_of_infix (parseValue_infix_self _) h3'
        rw [hk, hv]
        exact ⟨hkey.1, hkey.2, hval⟩
      · exact hp q hq2
    · exact hp q hq

theorem parse_entry_shape {blk : List Str} {p : Str × Str}
    (h : p ∈ parse_properties_block blk) :
    KeyShape p.1 ∧ containsSub productMarker p.1 = false
      ∧ containsSub productMarker p.2 = false :=
  parse_fold_shape blk [] (fun q hq => by cases hq) p h

theorem lineKey_none_of_inert {l : Str}
    (h : pstrip l = [] ∨ (pstrip l).head? = some '#') : lineKey l = none := by
  unfold lineKey
  rcases h with h | h
  · rw [if_pos h]
  · by_cases h0 : pstrip l = []
    · rw [if_pos h0]
    · rw [if_neg h0, if_pos h]

theorem lineKey_none_of_marker {l : Str}
    (h : containsSub productMarker (pstrip l) = true) : lineKey l = none := by
  unfold lineKey
  by_cases h0 : pstrip l = []
  · rw [if_pos h0]
  · rw [if_neg h0]
    by_cases h1 : (pstrip l).head? = some '#'
    · rw [if_pos h1]
    · rw [if_neg h1, if_pos h]

theorem lineKey_none_of_cond_false {l : Str}
    (h : (decide ('=' ∈ pstrip l) && !containsSub productMarker (pstrip l))
      = false) : lineKey l = none := by
  unfold lineKey
  by_cases h0 : pstrip l = []
  · rw [if_pos h0]
  · rw [if_neg h0]
    by_cases h1 : (pstrip l).head? = some '#'
    · rw [if_pos h1]
    · rw [if_neg h1]
      by_cases h2 : containsSub productMarker (pstrip l) = true
      · rw [if_pos h2]
      · have h2' : containsSub productMarker (pstrip l) = false :=
          Bool.eq_false_iff.mpr h2
        rw [h2'] at h
        simp only [Bool.not_false, Bool.and_true] at h
        rw [if_neg h2, if_neg (by simp [h])]

theorem updGo_rem_subset (blocks : List OvBlock) : ∀ (ls : List Str)
    (i skip : Nat) (rem : PropMap),
    ∀ p ∈ (updGo blocks ls i skip rem).2, p ∈ rem := by
  intro ls i skip rem
  induction ls, i, skip, rem using updGo.induct blocks with
  | case1 i skip rem =>
    intro p hp
    simpa only [updGo] using hp
  | case2 head rest i skip rem ih =>
    intro p hp
    simp only [updGo] at hp
    exact ih p hp
  | case3 l rest i rem h ih =>
    intro p hp
    simp only [updGo, if_pos h] at hp
    exact ih p hp
  | case4 l rest i rem h1 b hfind ih =>
    intro p hp
    simp only [updGo, if_neg h1, hfind] at hp
    exact absurd (ih p hp) (List.not_mem_nil p)
  | case5 l rest i rem h1 hfind hcond hkey ih =>
    intro p hp
    simp only [updGo, if_neg h1, hfind, hcond, if_pos hkey] at hp
    exact mem_eraseKey (ih p hp)
  | case6 l rest i rem h1 hfind hcond hkey ih =>
    intro p hp
    simp only [updGo, if_neg h1, hfind, hcond, if_neg hkey] at hp
    exact ih p hp
  | case7 l rest i rem h1 hfind hcond ih =>
    intro p hp
    simp only [updGo, if_neg h1, hfind] at hp
    rw [if_neg hcond] at hp
    exact ih p hp

theorem updGo_out_excl (blocks : List OvBlock) : ∀ (ls : List Str)
    (i skip : Nat) (rem : PropMap),
    StartsAreOv blocks ls i →
    (∀ k ∈ rem.map Prod.fst, KeyShape k) →
    ∀ l ∈ (updGo blocks ls i skip rem).1,
      lineKey l = none ∨ ∃ k ∈ rem.map Prod.fst, lineKey l = some k := by
  intro ls i skip rem
  induction ls, i, skip, rem using updGo.induct blocks with
  | case1 i skip rem =>
    intro _ _ l hl
    simp only [updGo, List.not_mem_nil] at hl
  | case2 head rest i skip rem ih =>
    intro hs hk l hl
    simp only [updGo] at hl
    exact ih (startsAreOv_tail hs) hk l hl
  | case3 l rest i rem h ih =>
    intro hs hk l' hl'
    simp only [updGo, if_pos h] at hl'
    rcases List.mem_cons.mp hl' with rfl | hl2
    · exact Or.inl (lineKey_none_of_inert h)
    · exact ih (startsAreOv_tail hs) hk l' hl2
  | case4 l rest i rem h1 b hfind ih =>
    intro hs hk l' hl'
    simp only [updGo, if_neg h1, hfind] at hl'
    have hbmem : b ∈ blocks := List.mem_of_find?_eq_some hfind
    have hbi : b.start = i := by
      have h0 := List.find?_some hfind
      simpa using h0
    have hov : isOvStart l = true := by
      have h := hs b hbmem (by omega) (by simp [hbi])
      rwa [hbi, Nat.sub_self, List.getD_cons_zero] at h
    have hov2 : containsSub productMarker (pstrip l) = true := by
      cases hx : containsSub productMarker (pstrip l)
      · exfalso
        unfold isOvStart at hov
        rw [hx] at hov
        simp at hov
      · rfl
    rcases List.mem_cons.mp hl' with rfl | hl2
    · exact Or.inl (lineKey_none_of_marker hov2)
    · rcases List.mem_append.mp hl2 with hser | hrec
      · obtain ⟨sp1, sp2, _⟩ := collectOvProps_spec b.body rem
        unfold ovSerialize at hser
        split at hser
        · cases hser
        · obtain ⟨p, hpm, w, _, rfl⟩ := renderOvProps_shape _ _ hser
          have hpkey : p.1 ∈ rem.map Prod.fst := by
            rcases List.mem_append.mp hpm with hbp | hr1
            · exact (sp1 p hbp).2
            · exact List.mem_map.mpr ⟨p, sp2 p hr1, rfl⟩
          rcases lineKey_rendered_cases (ovIndent_ws b.body) (hk _ hpkey)
              (p.2 ++ w) with hnone | hsome
          · exact Or.inl hnone
          · exact Or.inr ⟨p.1, hpkey, hsome⟩
      · rcases ih (startsAreOv_tail hs) (fun k hk => by cases hk) l' hrec
            with hnone | ⟨k, hk0, _⟩
        · exact Or.inl hnone
        · cases hk0
  | case5 l rest i rem h1 hfind hcond hkey ih =>
    intro hs hk l' hl'
    simp only [updGo, if_neg h1, hfind, hcond, if_pos hkey] at hl'
    have hkmem : pstrip (beforeChar '=' (pstrip l)) ∈ rem.map Prod.fst :=
      hasKey_iff.mp hkey
    rcases List.mem_cons.mp hl' with rfl | hl2
    · unfold updLine
      rcases lineKey_rendered_cases (fun c hc => List.mem_takeWhile_imp hc)
          (hk _ hkmem) _ with hnone | hsome
      · exact Or.inl hnone
      · exact Or.inr ⟨_, hkmem, hsome⟩
    · rcases ih (startsAreOv_tail hs)
          (fun k hkm => hk k (keys_eraseKey_subset hkm)) l' hl2
          with hnone | ⟨k, hk0, hsk⟩
      · exact Or.inl hnone
      · exact Or.inr ⟨k, keys_eraseKey_subset hk0, hsk⟩
  | case6 l rest i rem h1 hfind hcond hkey ih =>
    intro hs hk l' hl'
    simp only [updGo, if_neg h1, hfind, hcond, if_neg hkey] at hl'
    exact ih (startsAreOv_tail hs) hk l' hl'
  | case7 l rest i rem h1 hfind hcond ih =>
    intro hs hk l' hl'
    simp only [updGo, if_neg h1, hfind] at hl'
    rw [if_neg hcond] at hl'
    rcases List.mem_cons.mp hl' with rfl | hl2
    · exact Or.inl (lineKey_none_of_cond_false (Bool.eq_false_iff.mpr hcond))
    · exact ih (startsAreOv_tail hs) hk l' hl2

theorem updGo_coverage (blocks : List OvBlock) : ∀ (ls : List Str)
    (i skip : Nat) (rem : PropMap),
    (∀ p ∈ rem, KeyShape p.1 ∧ containsSub productMarker p.1 = false
      ∧ containsSub productMarker p.2 = false) →
    ∀ k ∈ rem.map Prod.fst,
      (∃ l ∈ (updGo blocks ls i skip rem).1, lineKey l = some k)
        ∨ k ∈ (updGo blocks ls i skip rem).2.map Prod.fst := by
  intro ls i skip rem
  induction ls, i, skip, rem using updGo.induct blocks with
  | case1 i skip rem =>
    intro _ k hk
    simp only [updGo]
    exact Or.inr hk
  | case2 head rest i skip rem ih =>
    intro hwf k hk
    simp only [updGo]
    exact ih hwf k hk
  | case3 l rest i rem h ih =>
    intro hwf k hk
    simp only [updGo, if_pos h]
    rcases ih hwf k hk with ⟨l', hl', he⟩ | hr
    · exact Or.inl ⟨l', List.mem_cons_of_mem _ hl', he⟩
    · exact Or.inr hr
  | case4 l rest i rem h1 b hfind ih =>
    intro hwf k hk
    simp only [updGo, if_neg h1, hfind]
    obtain ⟨sp1, sp2, sp3⟩ := collectOvProps_spec b.body rem
    have hpair : ∃ p ∈ (collectOvProps b.body rem).1
        ++ (collectOvProps b.body rem).2, p.1 = k ∧ p ∈ rem := by
      rcases sp3 k hk with hbp | hr1
      · obtain ⟨p, hp, rfl⟩ := List.mem_map.mp hbp
        exact ⟨p, List.mem_append_left _ hp, rfl,
          lookupKey_some_mem (sp1 p hp).1⟩
      · obtain ⟨p, hp, rfl⟩ := List.mem_map.mp hr1
        exact ⟨p, List.mem_append_right _ hp, rfl, sp2 p hp⟩
    obtain ⟨p, hpm, rfl, hprem⟩ := hpair
    obtain ⟨hks, hmfk, hmfv⟩ := hwf p hprem
    have hne : ((collectOvProps b.body rem).1
        ++ (collectOvProps b.body rem).2).isEmpty = false := by
      cases he : (collectOvProps b.body rem).1
          ++ (collectOvProps b.body rem).2 with
      | nil => rw [he] at hpm; cases hpm
      | cons q t => rfl
    obtain ⟨w, hw, hmem⟩ := @renderOvProps_mem (ovIndent b.body) _ p hpm
    have hline : lineKey (ovIndent b.body ++ p.1 ++ '=' :: (p.2 ++ w))
        = some p.1 := by
      refine lineKey_rendered_eq (ovIndent_ws b.body) hks _ ?_
      refine containsSub_append_false (by decide) hmfk ?_
      exact not_containsSub_of_infix
        (List.rdropWhile_prefix _ _).isInfix (markerFree_append_tail hmfv hw)
    refine Or.inl ⟨ovIndent b.body ++ p.1 ++ '=' :: (p.2 ++ w),
      List.mem_cons_of_mem _ (List.mem_append_left _ ?_), hline⟩
    unfold ovSerialize
    rw [if_neg (by rw [hne]; exact Bool.false_ne_true)]
    exact hmem
  | case5 l rest i rem h1 hfind hcond hkey ih =>
    intro hwf k hk
    simp only [updGo, if_neg h1, hfind, hcond, if_pos hkey]
    by_cases hkk : k = pstrip (beforeChar '=' (pstrip l))
    · subst hkk
      obtain ⟨v, hv⟩ := Option.isSome_iff_exists.mp hkey
      obtain ⟨hks, hmfk, hmfv⟩ := hwf _ (lookupKey_some_mem hv)
      have htr : containsSub productMarker
          (rstrip (afterChar '#' (afterChar '=' (pstrip l)))) = false := by
        have hinfix : rstrip (afterChar '#' (afterChar '=' (pstrip l)))
            <:+: pstrip l :=
          (List.rdropWhile_prefix _ _).isInfix.trans
            (((afterChar_suffix _ _).trans (afterChar_suffix _ _)).isInfix)
        have hmf : containsSub productMarker (pstrip l) = false := by
          cases hx : containsSub productMarker (pstrip l)
          · rfl
          · exfalso
            rw [hx] at hcond
            simp at hcond
        exact not_containsSub_of_infix hinfix hmf
      have hline : lineKey (updLine l rem) = some (pstrip (beforeChar '='
          (pstrip l))) := by
        unfold updLine
        refine lineKey_rendered_eq (fun c hc => List.mem_takeWhile_imp hc)
          hks _ ?_
        refine containsSub_append_false (by decide) hmfk ?_
        refine not_containsSub_of_infix (List.rdropWhile_prefix _ _).isInfix ?_
        rw [hv]
        split
        · exact markerFree_hash_tail hmfv htr
        · exact markerFree_append_tail hmfv (Or.inl (by simp))
      exact Or.inl ⟨updLine l rem, List.mem_cons_self _ _, hline⟩
    · have hk2 : k ∈ (eraseKey rem (pstrip (beforeChar '='
          (pstrip l)))).map Prod.fst := mem_keys_eraseKey hkk hk
      rcases ih (fun p hp => hwf p (mem_eraseKey hp)) k hk2
          with ⟨l', hl', he⟩ | hr
      · exact Or.inl ⟨l', List.mem_cons_of_mem _ hl', he⟩
      · exact Or.inr hr
  | case6 l rest i rem h1 hfind hcond hkey ih =>
    intro hwf k hk
    simp only [updGo, if_neg h1, hfind, hcond, if_neg hkey]
    exact ih hwf k hk
  | case7 l rest i rem h1 hfind hcond ih =>
    intro hwf k hk
    simp only [updGo, if_neg h1, hfind]
    rw [if_neg hcond]
    rcases ih hwf k hk with ⟨l', hl', he⟩ | hr
    · exact Or.inl ⟨l', List.mem_cons_of_mem _ hl', he⟩
    · exact Or.inr hr


/-- **C3.** Deletion contract of the block rewrite: for every property block
(a header line that is a comment, as every section header in the program is,
followed by arbitrary body lines) whose parsed properties include `A = v1`
and `B = v2` with `A ≠ B`, rewriting the block with the new-property mapping
`{A: v1}` produces output that still contains a line whose property key is
`A` and contains no line whose property key is `B` — neither as a plain
property line nor among the lines serialised for a
`PRODUCT_PROPERTY_OVERRIDES` group (`lineKey` extracts the key of either
line form, stripping a continuation backslash like the parser does). -/
theorem rewrite_block_deletion_contract (hd : Str) (body : List Str)
    (kA kB v1 v2 : Str)
    (hhd : (pstrip hd).head? = some '#')
    (hA : lookupKey (parse_properties_block (hd :: body)) kA = some v1)
    (hB : lookupKey (parse_properties_block (hd :: body)) kB = some v2)
    (hne : kA ≠ kB) :
    (∃ l ∈ rewriteBlock (hd :: body) [(kA, v1)], lineKey l = some kA)
      ∧ ∀ l ∈ rewriteBlock (hd :: body) [(kA, v1)], lineKey l ≠ some kB := by
  obtain ⟨hksA, hmfA, hmfv1⟩ := parse_entry_shape (lookupKey_some_mem hA)
  have hkeys : ∀ k ∈ ([(kA, v1)] : PropMap).map Prod.fst, KeyShape k := by
    intro k hk
    rcases List.mem_singleton.mp hk with rfl
    exact hksA
  have hwf : ∀ p ∈ ([(kA, v1)] : PropMap),
      KeyShape p.1 ∧ containsSub productMarker p.1 = false
        ∧ containsSub productMarker p.2 = false := by
    intro p hp
    rcases List.mem_singleton.mp hp with rfl
    exact ⟨hksA, hmfA, hmfv1⟩
  have hsub := updGo_rem_subset (analyzeBlocks body 1) body 1 0 [(kA, v1)]
  have hexcl := updGo_out_excl (analyzeBlocks body 1) body 1 0 [(kA, v1)]
    (startsAreOv_init body 1) hkeys
  have hrw : rewriteBlock (hd :: body) [(kA, v1)]
      = add_remaining_properties
          (hd :: (updGo (analyzeBlocks body 1) body 1 0 [(kA, v1)]).1)
          (updGo (analyzeBlocks body 1) body 1 0 [(kA, v1)]).2
          (hd :: body) := by
    simp only [rewriteBlock]
  constructor
  · rcases updGo_coverage (analyzeBlocks body 1) body 1 0 [(kA, v1)] hwf kA
        (by simp) with ⟨l, hl, he⟩ | hr
    · refine ⟨l, ?_, he⟩
      rw [hrw]
      unfold add_remaining_properties
      split
      · exact List.mem_cons_of_mem _ hl
      · exact List.mem_append_left _ (List.mem_cons_of_mem _ hl)
    · obtain ⟨p, hp, hpk⟩ := List.mem_map.mp hr
      rcases List.mem_singleton.mp (hsub p hp) with rfl
      have hemp : ((updGo (analyzeBlocks body 1) body 1 0
          [(kA, v1)]).2).isEmpty = false := by
        cases he2 : (updGo (analyzeBlocks body 1) body 1 0 [(kA, v1)]).2 with
        | nil => rw [he2] at hp; cases hp
        | cons q t => rfl
      refine ⟨get_default_indentation (hd :: body) ++ kA ++ '=' :: (v1 ++ ['\n']),
        ?_, ?_⟩
      · rw [hrw]
        unfold add_remaining_properties
        rw [if_neg (by rw [hemp]; exact Bool.false_ne_true)]
        refine List.mem_append_right _ (List.mem_map.mpr ⟨(kA, v1), hp, rfl⟩)
      · refine lineKey_rendered_eq (get_default_indentation_ws _) hksA _ ?_
        refine containsSub_append_false (by decide) hmfA ?_
        exact not_containsSub_of_infix (List.rdropWhile_prefix _ _).isInfix
          (markerFree_append_tail hmfv1 (Or.inl rfl))
  · intro l hl
    have hnotB : ∀ hsk : lineKey l = none ∨ ∃ k ∈ ([(kA, v1)] : PropMap).map
        Prod.fst, lineKey l = some k, lineKey l ≠ some kB := by
      rintro (hn | ⟨k, hk, he⟩) hcontra
      · rw [hn] at hcontra; cases hcontra
      · rcases List.mem_singleton.mp (by simpa using hk) with rfl
        rw [he] at hcontra
        exact hne (Option.some_inj.mp hcontra)
    rw [hrw] at hl
    unfold add_remaining_properties at hl
    split at hl
    · rcases List.mem_cons.mp hl with rfl | hl2
      · rw [lineKey_none_of_inert (Or.inr hhd)]
        exact fun hc => Option.noConfusion hc
      · exact hnotB (hexcl l hl2)
    · rcases List.mem_append.mp hl with hl1 | hl1
      · rcases List.mem_cons.mp hl1 with rfl | hl2
        · rw [lineKey_none_of_inert (Or.inr hhd)]
          exact fun hc => Option.noConfusion hc
        · exact hnotB (hexcl l hl2)
      · obtain ⟨p, hp, rfl⟩ := List.mem_map.mp hl1
        rcases List.mem_singleton.mp (hsub p hp) with rfl
        refine hnotB ?_
        rcases lineKey_rendered_cases (get_default_indentation_ws (hd :: body))
            hksA (v1 ++ ['\n']) with hn | hsome
        · exact Or.inl hn
        · exact Or.inr ⟨kA, by simp, hsome⟩

/-! Toolkit for the idempotence analysis (C1): list and dictionary
utilities, computations on rendered property lines, and the normal-form
invariants of the update loop. -/

theorem dropWhile_append_forall {α : Type} {p : α → Bool} {a : List α}
    (h : ∀ x ∈ a, p x = true) (z : List α) :
    (a ++ z).dropWhile p = z.dropWhile p := by
  induction a with
  | nil => rfl
  | cons c t ih =>
    rw [List.cons_append, List.dropWhile_cons, if_pos (h c (by simp))]
    exact ih (fun x hx => h x (by simp [hx]))

theorem takeWhile_append_forall {α : Type} {p : α → Bool} {a : List α}
    (h : ∀ x ∈ a, p x = true) (z : List α) :
    (a ++ z).takeWhile p = a ++ z.takeWhile p := by
  induction a with
  | nil => rfl
  | cons c t ih =>
    rw [List.cons_append, List.takeWhile_cons, if_pos (h c (by simp)),
      ih (fun x hx => h x (by simp [hx])), List.cons_append]

theorem takeWhile_append_cons_gen {α : Type} {p : α → Bool} {a : List α}
    {c : α} (h : ∀ x ∈ a, p x = true) (hc : p c = false) (z : List α) :
    (a ++ c :: z).takeWhile p = a := by
  rw [takeWhile_append_forall h, List.takeWhile_cons, if_neg (by simp [hc]),
    List.append_nil]

theorem dropWhile_append_cons_gen {α : Type} {p : α → Bool} {a : List α}
    {c : α} (h : ∀ x ∈ a, p x = true) (hc : p c = false) (z : List α) :
    (a ++ c :: z).dropWhile p = c :: z := by
  rw [dropWhile_append_forall h, List.dropWhile_cons, if_neg (by simp [hc])]

theorem rstrip_idem (s : Str) : rstrip (rstrip s) = rstrip s :=
  List.rdropWhile_idempotent _ _

theorem rstrip_append_ws {c : Char} (hc : isWs c = true) (v : Str) :
    rstrip (v ++ [c]) = rstrip v := by
  show ((v ++ [c]).reverse.dropWhile isWs).reverse
    = (v.reverse.dropWhile isWs).reverse
  rw [List.reverse_append, List.reverse_singleton, List.singleton_append,
    List.dropWhile_cons, if_pos hc]

theorem rstrip_append_cons_stable {c : Char} (hc : isWs c = false)
    (a z : Str) (hz : rstrip z = z) :
    rstrip (a ++ c :: z) = a ++ c :: z := by
  rw [show rstrip (a ++ c :: z) = a ++ c :: rstrip z from
    rdropWhile_append_cons hc a z, hz]

theorem lookupKey_filter {β : Type} (P : AList β) (S : List Str) (k : Str) :
    lookupKey (P.filter (fun p => decide (p.1 ∈ S))) k
      = if k ∈ S then lookupKey P k else none := by
  induction P with
  | nil =>
    show (none : Option β) = if k ∈ S then none else none
    split <;> rfl
  | cons q rest ih =>
    rw [List.filter_cons]
    by_cases hq : q.1 ∈ S
    · rw [if_pos (by simpa using hq)]
      show (if q.1 = k then some q.2 else
        lookupKey (rest.filter (fun p => decide (p.1 ∈ S))) k) = _
      by_cases hqk : q.1 = k
      · rw [if_pos hqk, if_pos (hqk ▸ hq)]
        show some q.2 = if q.1 = k then some q.2 else lookupKey rest k
        rw [if_pos hqk]
      · rw [if_neg hqk, ih]
        by_cases hkS : k ∈ S
        · rw [if_pos hkS, if_pos hkS]
          show lookupKey rest k = if q.1 = k then some q.2 else lookupKey rest k
          rw [if_neg hqk]
        · rw [if_neg hkS, if_neg hkS]
    · rw [if_neg (by simpa using hq), ih]
      by_cases hkS : k ∈ S
      · rw [if_pos hkS, if_pos hkS]
        have hqk : q.1 ≠ k := fun he => hq (he ▸ hkS)
        show lookupKey rest k = if q.1 = k then some q.2 else lookupKey rest k
        rw [if_neg hqk]
      · rw [if_neg hkS, if_neg hkS]

theorem filter_keys_congr {β : Type} {P : AList β} {T1 T2 : List Str}
    (h : ∀ x, x ∈ T1 ↔ x ∈ T2) :
    P.filter (fun p => decide (p.1 ∈ T1))
      = P.filter (fun p => decide (p.1 ∈ T2)) :=
  List.filter_congr (fun p _ => decide_eq_decide.mpr (h p.1))

theorem eraseKey_filter {β : Type} (P : AList β) (S S' : List Str) (k : Str)
    (h : ∀ x, x ∈ S' ↔ x ∈ S ∧ x ≠ k) :
    eraseKey (P.filter (fun p => decide (p.1 ∈ S))) k
      = P.filter (fun p => decide (p.1 ∈ S')) := by
  unfold eraseKey
  rw [List.filter_filter]
  refine List.filter_congr ?_
  intro p _
  by_cases h1 : p.1 ∈ S
  · by_cases h2 : p.1 = k
    · have hns : k ∉ S' := fun hc => ((h k).mp hc).2 rfl
      simp [h1, h2, hns]
    · simp [h1, h2, h p.1]
  · simp [h1, h p.1, fun hc : p.1 ∈ S' => h1 ((h p.1).mp hc).1]

theorem lookupKey_of_mem_nodup {β : Type} {m : AList β}
    (hnd : (m.map Prod.fst).Nodup) {p : Str × β} (hp : p ∈ m) :
    lookupKey m p.1 = some p.2 := by
  induction m with
  | nil => cases hp
  | cons q rest ih =>
    rw [List.map_cons, List.nodup_cons] at hnd
    show (if q.1 = p.1 then some q.2 else lookupKey rest p.1) = some p.2
    rcases List.mem_cons.mp hp with rfl | hp2
    · rw [if_pos rfl]
    · have hqp : q.1 ≠ p.1 := fun he =>
        hnd.1 (he ▸ List.mem_map.mpr ⟨p, hp2, rfl⟩)
      rw [if_neg hqp]
      exact ih hnd.2 hp2

theorem cond_true_marker_free {l : Str}
    (h : (decide ('=' ∈ pstrip l) && !containsSub productMarker (pstrip l))
      = true) : containsSub productMarker (pstrip l) = false := by
  cases hx : containsSub productMarker (pstrip l)
  · rfl
  · exfalso
    rw [hx] at h
    simp at h

theorem takeWhile_ws_rendered {ind k : Str}
    (hind : ∀ c ∈ ind, isWs c = true) (hk : KeyShape k) (w : Str) :
    (ind ++ k ++ '=' :: w).takeWhile isWs = ind := by
  cases k with
  | nil =>
    rw [List.append_nil]
    exact takeWhile_append_cons_gen hind (by decide) w
  | cons c t =>
    have hc : isWs c = false := pstrip_head_not_ws hk.2.1 rfl
    rw [List.append_assoc]
    exact takeWhile_append_cons_gen hind hc _

theorem key_of_rendered {k : Str} (hk : KeyShape k) (z : Str) :
    pstrip (beforeChar '=' (k ++ '=' :: z)) = k := by
  have h3 : beforeChar '=' (k ++ '=' :: z) = k := by
    unfold beforeChar
    exact takeWhile_append_cons_gen (fun x hx => by
      simp only [decide_eq_true_eq]
      exact fun hcontra => hk.1 (hcontra ▸ hx)) (by simp) _
  rw [h3, hk.2.1]

theorem afterChar_rendered {k : Str} (hk : '=' ∉ k) (z : Str) :
    afterChar '=' (k ++ '=' :: z) = z := by
  unfold afterChar
  rw [dropWhile_append_cons_gen (fun x hx => by
    simp only [decide_eq_true_eq]
    exact fun hcontra => hk (hcontra ▸ hx)) (by simp) z]
  rfl

theorem afterChar_hash {v tr : Str} (hv : '#' ∉ v) :
    afterChar '#' (v ++ ' ' :: '#' :: tr) = tr := by
  unfold afterChar
  rw [dropWhile_append_forall (fun x hx => by
    simp only [decide_eq_true_eq]
    exact fun hcontra => hv (hcontra ▸ hx)) _,
    List.dropWhile_cons, if_pos (by decide), List.dropWhile_cons,
    if_neg (by simp)]
  rfl

theorem not_mem_rstrip {c : Char} {v : Str} (h : c ∉ v) : c ∉ rstrip v :=
  fun hc => h ((List.rdropWhile_prefix _ _).sublist.subset hc)


theorem rendered_line_facts {P rem : PropMap} {k l : Str}
    (hP : PWF P) (hr : RenderedLine P k l)
    (hrem : lookupKey rem k = lookupKey P k) :
    ¬(pstrip l = [] ∨ (pstrip l).head? = some '#')
      ∧ (decide ('=' ∈ pstrip l)
          && !containsSub productMarker (pstrip l)) = true
      ∧ pstrip (beforeChar '=' (pstrip l)) = k
      ∧ updLine l rem = l := by
  obtain ⟨ind, v, tail, hind, hlook, htail, rfl⟩ := hr
  obtain ⟨hks, hmfk, hmfv, hhv⟩ := hP.2 _ (lookupKey_some_mem hlook)
  have hps : pstrip (ind ++ k ++ '=' :: (v ++ (tail ++ ['\n'])))
      = k ++ '=' :: rstrip (v ++ (tail ++ ['\n'])) := pstrip_rendered hind hks _
  have hmfz : containsSub productMarker (rstrip (v ++ (tail ++ ['\n'])))
      = false := by
    refine not_containsSub_of_infix (List.rdropWhile_prefix _ _).isInfix ?_
    rcases htail with rfl | ⟨tr, rfl, htr1, htr2⟩
    · rw [List.nil_append]
      exact markerFree_append_tail hmfv (Or.inl rfl)
    · exact markerFree_hash_tail hmfv htr2
  have hmfline : containsSub productMarker
      (k ++ '=' :: rstrip (v ++ (tail ++ ['\n']))) = false :=
    containsSub_append_false (by decide) hmfk hmfz
  refine ⟨?_, ?_, ?_, ?_⟩
  · rintro (he | hh)
    · rw [hps] at he
      simp at he
    · rw [hps] at hh
      exact rendered_head_ne_hash hks.2.2 _ hh
  · rw [hps, hmfline]
    have hmemeq : '=' ∈ k ++ '=' :: rstrip (v ++ (tail ++ ['\n'])) :=
      List.mem_append_right _ (List.mem_cons_self _ _)
    simp [hmemeq]
  · rw [hps]
    exact key_of_rendered hks _
  · unfold updLine
    rw [takeWhile_ws_rendered hind hks, hps, key_of_rendered hks,
      afterChar_rendered hks.1, hrem, hlook]
    rcases htail with rfl | ⟨tr, rfl, htr1, htr2⟩
    · have hz : rstrip (v ++ ([] ++ ['\n'])) = rstrip v := by
        rw [List.nil_append]
        exact rstrip_append_ws (by decide) v
      rw [hz, decide_eq_false (not_mem_rstrip hhv)]
      rfl
    · have hz : rstrip (v ++ ((' ' :: '#' :: tr) ++ ['\n']))
          = v ++ ' ' :: '#' :: tr := by
        rw [← List.append_assoc, rstrip_append_ws (by decide)]
        rw [List.append_cons v ' ' ('#' :: tr)]
        rw [rstrip_append_cons_stable (by decide) (v ++ [' ']) tr htr1,
          List.append_assoc]
      rw [hz, decide_eq_true (List.mem_append_right v (by simp)),
        afterChar_hash hhv, htr1]
      rfl

theorem normBody_append {Q : Str → Prop} {P : PropMap} :
    ∀ {a ka b kb : List Str}, NormBody Q P a ka → NormBody Q P b kb →
    NormBody Q P (a ++ b) (ka ++ kb) := by
  intro a ka b kb h1 h2
  induction h1 with
  | nil => simpa using h2
  | inert hi hq _ ih => exact NormBody.inert hi hq ih
  | rendered hr _ ih => exact NormBody.rendered hr ih

theorem normBody_map_rendered {Q : Str → Prop} {P : PropMap}
    {f : Str × Str → Str} : ∀ (m : PropMap),
    (∀ p ∈ m, RenderedLine P p.1 (f p)) →
    NormBody Q P (m.map f) (m.map Prod.fst) := by
  intro m
  induction m with
  | nil => intro _; exact NormBody.nil
  | cons p rest ih =>
    intro h
    exact NormBody.rendered (h p (by simp))
      (ih (fun q hq => h q (List.mem_cons_of_mem _ hq)))

theorem normBody_mem {Q : Str → Prop} {P : PropMap} :
    ∀ {lines ks : List Str}, NormBody Q P lines ks →
    ∀ l ∈ lines, (Inert l ∧ Q l) ∨ ∃ k, RenderedLine P k l := by
  intro lines ks h
  induction h with
  | nil => intro l hl; cases hl
  | inert hi hq _ ih =>
    intro l hl
    rcases List.mem_cons.mp hl with rfl | hl2
    · exact Or.inl ⟨hi, hq⟩
    · exact ih l hl2
  | rendered hr _ ih =>
    intro l hl
    rcases List.mem_cons.mp hl with rfl | hl2
    · exact Or.inr ⟨_, hr⟩
    · exact ih l hl2

theorem rendered_marker_free {P : PropMap} {k l : Str} (hP : PWF P)
    (hr : RenderedLine P k l) :
    containsSub productMarker (pstrip l) = false :=
  cond_true_marker_free (rendered_line_facts hP hr rfl).2.1

theorem rendered_not_end {P : PropMap} {k l : Str} {nhl : List Str}
    (hP : PWF P) (hr : RenderedLine P k l)
    (hnhl : ∀ e ∈ nhl, e = [] ∨ e.head? = some '#') :
    isEndLine nhl l = false := by
  obtain ⟨ind, v, tail, hind, hlook, htail, rfl⟩ := hr
  obtain ⟨hks, _, _, _⟩ := hP.2 _ (lookupKey_some_mem hlook)
  have hps := pstrip_rendered hind hks (v ++ (tail ++ ['\n']))
  unfold isEndLine
  rw [hps]
  refine decide_eq_false ?_
  intro hmem
  rcases hnhl _ hmem with he | he
  · simp at he
  · exact rendered_head_ne_hash hks.2.2 _ he

theorem analyzeGo_nil : ∀ (ls : List Str) (i skip : Nat),
    (∀ l ∈ ls, containsSub productMarker (pstrip l) = false) →
    analyzeGo ls i skip = [] := by
  intro ls i skip
  induction ls, i, skip using analyzeGo.induct with
  | case1 i skip => intro _; rfl
  | case2 l rest i skip ih =>
    intro h
    simp only [analyzeGo]
    exact ih (fun x hx => h x (List.mem_cons_of_mem _ hx))
  | case3 l rest i hov ih =>
    intro h
    exfalso
    unfold isOvStart at hov
    rw [h l (by simp)] at hov
    simp at hov
  | case4 l rest i hov ih =>
    intro h
    simp only [analyzeGo]
    rw [if_neg hov]
    exact ih (fun x hx => h x (List.mem_cons_of_mem _ hx))

theorem add_remaining_eq (nb : List Str) (rem : PropMap) (orig : List Str) :
    add_remaining_properties nb rem orig
      = nb ++ rem.map (fun p =>
          get_default_indentation orig ++ p.1 ++ '=' :: (p.2 ++ ['\n'])) := by
  unfold add_remaining_properties
  split
  · rename_i hemp
    have hnil : rem = [] := by
      cases rem with
      | nil => rfl
      | cons q t => simp at hemp
    rw [hnil]
    simp
  · rfl

theorem updGo_normalizes {P : PropMap} {Q : Str → Prop} (hP : PWF P) :
    ∀ (ls : List Str) (i : Nat) (S : List Str), S.Nodup →
    (∀ l ∈ ls, containsSub productMarker (pstrip l) = false ∧ Q l) →
    ∃ ks : List Str, ks.Nodup ∧ (∀ k ∈ ks, k ∈ S)
      ∧ NormBody Q P
          (updGo [] ls i 0 (P.filter (fun p => decide (p.1 ∈ S)))).1 ks
      ∧ (updGo [] ls i 0 (P.filter (fun p => decide (p.1 ∈ S)))).2
          = P.filter (fun p => decide (p.1
              ∈ S.filter (fun x => !decide (x ∈ ks)))) := by
  intro ls
  induction ls with
  | nil =>
    intro i S hnd h
    refine ⟨[], List.nodup_nil, fun k hk => absurd hk (List.not_mem_nil k),
      NormBody.nil, ?_⟩
    simp only [updGo]
    refine filter_keys_congr ?_
    intro x
    simp
  | cons l rest ih =>
    intro i S hnd h
    have hl := h l (by simp)
    have hrest := fun x hx => h x (List.mem_cons_of_mem _ hx)
    by_cases hbc : pstrip l = [] ∨ (pstrip l).head? = some '#'
    · obtain ⟨ks, hnd', hsub, hnb, hrem⟩ := ih (i + 1) S hnd hrest
      refine ⟨ks, hnd', hsub, ?_, ?_⟩
      · simp only [updGo, if_pos hbc]
        exact NormBody.inert ⟨hl.1, by tauto⟩ hl.2 hnb
      · simp only [updGo, if_pos hbc]
        exact hrem
    · by_cases hcond : (decide ('=' ∈ pstrip l)
          && !containsSub productMarker (pstrip l)) = true
      · by_cases hkey : hasKey (P.filter (fun p => decide (p.1 ∈ S)))
            (pstrip (beforeChar '=' (pstrip l))) = true
        · have hlk := lookupKey_filter P S (pstrip (beforeChar '=' (pstrip l)))
          have hinS : pstrip (beforeChar '=' (pstrip l)) ∈ S
              ∧ ∃ v, lookupKey P (pstrip (beforeChar '=' (pstrip l)))
                = some v := by
            unfold hasKey at hkey
            rw [hlk] at hkey
            by_cases hS : pstrip (beforeChar '=' (pstrip l)) ∈ S
            · rw [if_pos hS] at hkey
              exact ⟨hS, Option.isSome_iff_exists.mp hkey⟩
            · rw [if_neg hS] at hkey
              cases hkey
          obtain ⟨hS, v, hv⟩ := hinS
          have herase := eraseKey_filter P S
            (S.filter (fun x => decide (x ≠ pstrip (beforeChar '='
              (pstrip l)))))
            (pstrip (beforeChar '=' (pstrip l))) (by intro x; simp)
          obtain ⟨ks', hnd', hsub', hnb', hrem'⟩ := ih (i + 1)
            (S.filter (fun x => decide (x ≠ pstrip (beforeChar '='
              (pstrip l)))))
            (hnd.filter _) hrest
          have hk0notin : pstrip (beforeChar '=' (pstrip l)) ∉ ks' := by
            intro hc
            have := hsub' _ hc
            simp at this
          refine ⟨pstrip (beforeChar '=' (pstrip l)) :: ks',
            List.nodup_cons.mpr ⟨hk0notin, hnd'⟩, ?_, ?_, ?_⟩
          · intro k hk
            rcases List.mem_cons.mp hk with rfl | hk2
            · exact hS
            · have := hsub' k hk2
              simp at this
              exact this.1
          · simp only [updGo, List.find?_nil, if_neg hbc, hcond, if_pos hkey]
            rw [herase]
            refine NormBody.rendered ?_ hnb'
            refine ⟨l.takeWhile isWs, v,
              (if decide ('#' ∈ afterChar '=' (pstrip l))
                then ' ' :: '#' :: rstrip (afterChar '#' (afterChar '='
                  (pstrip l)))
                else []),
              fun c hc => List.mem_takeWhile_imp hc, hv, ?_, ?_⟩
            · split
              · right
                refine ⟨rstrip (afterChar '#' (afterChar '=' (pstrip l))),
                  rfl, rstrip_idem _, ?_⟩
                refine not_containsSub_of_infix
                  ((List.rdropWhile_prefix _ _).isInfix.trans
                    (((afterChar_suffix _ _).trans
                      (afterChar_suffix _ _)).isInfix)) hl.1
              · left; rfl
            · unfold updLine
              rw [hlk, if_pos hS, hv, Option.getD_some]
          · simp only [updGo, List.find?_nil, if_neg hbc, hcond, if_pos hkey]
            rw [herase, hrem']
            refine filter_keys_congr ?_
            intro x
            simp only [List.mem_filter, List.mem_cons, decide_eq_true_eq,
              Bool.not_eq_true', decide_eq_false_iff_not]
            constructor
            · rintro ⟨⟨hx1, hx2⟩, hx3⟩
              exact ⟨hx1, by simp [hx2, hx3]⟩
            · rintro ⟨hx1, hx2⟩
              simp only [not_or] at hx2
              exact ⟨⟨hx1, hx2.1⟩, by simp [hx2.2]⟩
        · obtain ⟨ks, hnd', hsub, hnb, hrem⟩ := ih (i + 1) S hnd hrest
          refine ⟨ks, hnd', hsub, ?_, ?_⟩
          · simp only [updGo, List.find?_nil, if_neg hbc, hcond, if_neg hkey]
            exact hnb
          · simp only [updGo, List.find?_nil, if_neg hbc, hcond, if_neg hkey]
            exact hrem
      · obtain ⟨ks, hnd', hsub, hnb, hrem⟩ := ih (i + 1) S hnd hrest
        have hnoeq : '=' ∉ pstrip l := by
          intro hmem
          exact hcond (by rw [hl.1]; simp [hmem])
        refine ⟨ks, hnd', hsub, ?_, ?_⟩
        · simp only [updGo, List.find?_nil, if_neg hbc]
          rw [if_neg hcond]
          exact NormBody.inert ⟨hl.1, Or.inr (Or.inr hnoeq)⟩ hl.2 hnb
        · simp only [updGo, List.find?_nil, if_neg hbc]
          rw [if_neg hcond]
          exact hrem

theorem updGo_norm_identity {P : PropMap} {Q : Str → Prop} (hP : PWF P) :
    ∀ {lines ks : List Str}, NormBody Q P lines ks → ks.Nodup →
    ∀ (i : Nat),
    updGo [] lines i 0 (P.filter (fun p => decide (p.1 ∈ ks)))
      = (lines, []) := by
  intro lines ks hnb
  induction hnb with
  | nil =>
    intro _ i
    simp only [updGo]
    have hz : P.filter (fun p => decide (p.1 ∈ ([] : List Str))) = [] := by
      simp
    rw [hz]
  | @inert l ls ks hi hq hrest ih =>
    intro hnd i
    by_cases hbc : pstrip l = [] ∨ (pstrip l).head? = some '#'
    · simp only [updGo, if_pos hbc]
      rw [ih hnd (i + 1)]
    · have hnoeq : '=' ∉ pstrip l := by
        rcases hi.2 with hb | hb | hb
        · exact absurd (Or.inl hb) hbc
        · exact absurd (Or.inr hb) hbc
        · exact hb
      simp only [updGo, List.find?_nil, if_neg hbc]
      rw [if_neg (by simp [hnoeq])]
      rw [ih hnd (i + 1)]
  | @rendered l ls ks k hr hrest ih =>
    intro hnd i
    have hlkfact : lookupKey (P.filter (fun p => decide (p.1 ∈ k :: ks))) k
        = lookupKey P k := by
      rw [lookupKey_filter, if_pos (List.mem_cons_self _ _)]
    obtain ⟨hnotblank, hcond, hkeyeq, hupd⟩ :=
      rendered_line_facts hP hr hlkfact
    have hkey : hasKey (P.filter (fun p => decide (p.1 ∈ k :: ks)))
        (pstrip (beforeChar '=' (pstrip l))) = true := by
      rw [hkeyeq]
      unfold hasKey
      rw [hlkfact]
      obtain ⟨ind, v, tail, _, hlook, _, _⟩ := hr
      rw [hlook]
      rfl
    simp only [updGo, List.find?_nil, if_neg hnotblank, hcond, if_pos hkey]
    rw [hkeyeq, hupd]
    have herase : eraseKey (P.filter (fun p => decide (p.1 ∈ k :: ks))) k
        = P.filter (fun p => decide (p.1 ∈ ks)) := by
      refine eraseKey_filter P (k :: ks) ks k ?_
      intro x
      have hknotin := (List.nodup_cons.mp hnd).1
      constructor
      · intro hx
        exact ⟨List.mem_cons_of_mem _ hx, fun he => hknotin (he ▸ hx)⟩
      · rintro ⟨hx, hne⟩
        rcases List.mem_cons.mp hx with rfl | h2
        · exact absurd rfl hne
        · exact h2
    rw [herase, ih (List.nodup_cons.mp hnd).2 (i + 1), if_pos trivial]

theorem rewriteBlock_normalizes {P : PropMap} {Q : Str → Prop} (hP : PWF P)
    (h : Str) (mid : List Str)
    (hhyp : ∀ l ∈ mid, containsSub productMarker (pstrip l) = false ∧ Q l) :
    ∃ body ks, rewriteBlock (h :: mid) P = h :: body
      ∧ NormBody Q P body ks ∧ ks.Nodup
      ∧ P.filter (fun p => decide (p.1 ∈ ks)) = P
      ∧ ∀ l ∈ body, containsSub productMarker (pstrip l) = false := by
  have hanalyze : analyzeBlocks mid 1 = [] :=
    analyzeGo_nil mid 1 0 (fun l hl => (hhyp l hl).1)
  have hfilterP : P.filter (fun p => decide (p.1 ∈ P.map Prod.fst)) = P :=
    List.filter_eq_self.mpr
      (fun p hp => decide_eq_true (List.mem_map.mpr ⟨p, hp, rfl⟩))
  obtain ⟨ks, hksnd, hkssub, hnorm, hrem⟩ :=
    @updGo_normalizes P Q hP mid 1 (P.map Prod.fst) hP.1 hhyp
  rw [hfilterP] at hnorm hrem
  have happ : ∀ p ∈ (updGo [] mid 1 0 P).2,
      lookupKey P p.1 = some p.2
        ∧ RenderedLine P p.1 (get_default_indentation (h :: mid)
            ++ p.1 ++ '=' :: (p.2 ++ ['\n'])) := by
    intro p hp
    rw [hrem] at hp
    have hpP : p ∈ P := (List.mem_filter.mp hp).1
    have hlook := lookupKey_of_mem_nodup hP.1 hpP
    exact ⟨hlook, ⟨get_default_indentation (h :: mid), p.2, [],
      get_default_indentation_ws _, hlook, Or.inl rfl, by simp⟩⟩
  have hnormapp : NormBody Q P
      (((updGo [] mid 1 0 P).2).map (fun p =>
        get_default_indentation (h :: mid) ++ p.1 ++ '=' :: (p.2 ++ ['\n'])))
      (((updGo [] mid 1 0 P).2).map Prod.fst) :=
    normBody_map_rendered _ (fun p hp => (happ p hp).2)
  have hndapp : (((updGo [] mid 1 0 P).2).map Prod.fst).Nodup := by
    rw [hrem]
    exact List.Nodup.sublist ((List.filter_sublist P).map Prod.fst) hP.1
  have hdisj : ∀ k, k ∈ ks →
      k ∈ ((updGo [] mid 1 0 P).2).map Prod.fst → False := by
    intro k hk1 hk2
    obtain ⟨p, hp, rfl⟩ := List.mem_map.mp hk2
    rw [hrem] at hp
    have hdec := (List.mem_filter.mp hp).2
    have hmem := of_decide_eq_true hdec
    have := (List.mem_filter.mp hmem).2
    simp only [Bool.not_eq_true', decide_eq_false_iff_not] at this
    exact this hk1
  have hndtot : (ks ++ ((updGo [] mid 1 0 P).2).map Prod.fst).Nodup :=
    List.Nodup.append hksnd hndapp hdisj
  have hcov : P.filter (fun p => decide (p.1
      ∈ ks ++ ((updGo [] mid 1 0 P).2).map Prod.fst)) = P := by
    refine List.filter_eq_self.mpr ?_
    intro p hp
    refine decide_eq_true ?_
    by_cases hin : p.1 ∈ ks
    · exact List.mem_append_left _ hin
    · refine List.mem_append_right _ ?_
      refine List.mem_map.mpr ⟨p, ?_, rfl⟩
      rw [hrem]
      refine List.mem_filter.mpr ⟨hp, decide_eq_true ?_⟩
      refine List.mem_filter.mpr ⟨List.mem_map.mpr ⟨p, hp, rfl⟩, ?_⟩
      simp [hin]
  have hrb : rewriteBlock (h :: mid) P
      = h :: ((updGo [] mid 1 0 P).1
        ++ ((updGo [] mid 1 0 P).2).map (fun p =>
          get_default_indentation (h :: mid) ++ p.1 ++ '='
            :: (p.2 ++ ['\n']))) := by
    simp only [rewriteBlock]
    rw [hanalyze, add_remaining_eq, List.cons_append]
  refine ⟨_, ks ++ ((updGo [] mid 1 0 P).2).map Prod.fst, hrb,
    normBody_append hnorm hnormapp, hndtot, hcov, ?_⟩
  intro l hl
  rcases normBody_mem (normBody_append hnorm hnormapp) l hl with ⟨hi, _⟩ | ⟨k, hr⟩
  · exact hi.1
  · exact rendered_marker_free hP hr

theorem rewriteBlock_norm_identity {P : PropMap} {Q : Str → Prop}
    (hP : PWF P) (h : Str) {body ks : List Str}
    (hnb : NormBody Q P body ks) (hnd : ks.Nodup)
    (hcov : P.filter (fun p => decide (p.1 ∈ ks)) = P)
    (hmf : ∀ l ∈ body, containsSub productMarker (pstrip l) = false) :
    rewriteBlock (h :: body) P = h :: body := by
  have hanalyze : analyzeBlocks body 1 = [] := analyzeGo_nil body 1 0 hmf
  have hpass : updGo [] body 1 0 P = (body, []) := by
    have h2 := updGo_norm_identity hP hnb hnd 1
    rwa [hcov] at h2
  simp only [rewriteBlock]
  rw [hanalyze, hpass, add_remaining_eq]
  simp

/-- **C1 (counterexample).** The block rewrite is not idempotent: when the
new value of a key contains `#`, the second pass re-extracts the part after
`#` as a "trailing comment" and appends it again, so the second application
changes the line `key=a#b` into `key=a#b #b`. -/
theorem rewrite_block_not_idempotent :
    update_properties_block_preserve_format_with_deletions
        (update_properties_block_preserve_format_with_deletions
          ["# LMKD property\n".toList, "key=old\n".toList]
          [("key".toList, "a#b".toList)] "# LMKD property".toList [])
        [("key".toList, "a#b".toList)] "# LMKD property".toList []
      ≠ update_properties_block_preserve_format_with_deletions
          ["# LMKD property\n".toList, "key=old\n".toList]
          [("key".toList, "a#b".toList)] "# LMKD property".toList [] := by
  decide

/-- **C1 (amended).** Restricted idempotence of the block update: for every
line list none of whose lines mentions `PRODUCT_PROPERTY_OVERRIDES`, every
end-header list whose entries are blank or comments (as the program's
section headers are), and every well-formed new-property mapping (unique
well-shaped keys, no `PRODUCT_PROPERTY_OVERRIDES` in keys or values, and no
`#` in values), applying
`update_properties_block_preserve_format_with_deletions` twice gives the
same line list as applying it once. -/
theorem update_properties_block_idempotent_of_wf
    (lines : List Str) (P : PropMap) (sh : Str) (nhl : List Str)
    (hP : PWF P)
    (hlines : ∀ l ∈ lines, containsSub productMarker (pstrip l) = false)
    (hnhl : ∀ e ∈ nhl, e = [] ∨ e.head? = some '#') :
    update_properties_block_preserve_format_with_deletions
        (update_properties_block_preserve_format_with_deletions lines P sh nhl)
        P sh nhl
      = update_properties_block_preserve_format_with_deletions
          lines P sh nhl := by
  cases hdw : lines.dropWhile (fun l => !isStartLine sh l) with
  | nil =>
    have h1 : update_properties_block_preserve_format_with_deletions
        lines P sh nhl = lines := by
      unfold update_properties_block_preserve_format_with_deletions
      rw [hdw]
    rw [h1]
    exact h1
  | cons h t =>
    have hhstart := dropWhile_head_not hdw
    have htmem : ∀ x ∈ t, x ∈ lines := by
      intro x hx
      have hx2 : x ∈ lines.dropWhile (fun l => !isStartLine sh l) := by
        rw [hdw]
        exact List.mem_cons_of_mem _ hx
      exact (List.dropWhile_suffix _).sublist.subset hx2
    have hmidhyp : ∀ l ∈ t.takeWhile (fun l => !isEndLine nhl l),
        containsSub productMarker (pstrip l) = false
          ∧ isEndLine nhl l = false := by
      intro x hx
      refine ⟨hlines x (htmem x ((List.takeWhile_prefix _).sublist.subset hx)),
        ?_⟩
      have h2 := List.mem_takeWhile_imp hx
      simpa using h2
    obtain ⟨body, ks, hrb, hnb, hnd, hcov, hmf⟩ :=
      @rewriteBlock_normalizes P (fun l => isEndLine nhl l = false) hP h
        (t.takeWhile (fun l => !isEndLine nhl l)) hmidhyp
    have hFlines : update_properties_block_preserve_format_with_deletions
        lines P sh nhl
        = lines.takeWhile (fun l => !isStartLine sh l) ++ (h :: body)
          ++ t.dropWhile (fun l => !isEndLine nhl l) := by
      simp only [update_properties_block_preserve_format_with_deletions, hdw]
      rw [hrb]
    have hbody_notend : ∀ l ∈ body, isEndLine nhl l = false := by
      intro l hl
      rcases normBody_mem hnb l hl with ⟨_, hq⟩ | ⟨k, hr⟩
      · exact hq
      · exact rendered_not_end hP hr hnhl
    have hbody_fa : ∀ x ∈ body, (fun l => !isEndLine nhl l) x = true := by
      intro x hx
      show (!isEndLine nhl x) = true
      rw [hbody_notend x hx]
      rfl
    have hpre_fa := fun x (hx : x ∈ lines.takeWhile
      (fun l => !isStartLine sh l)) => List.mem_takeWhile_imp hx
    have hposttw : (t.dropWhile (fun l => !isEndLine nhl l)).takeWhile
        (fun l => !isEndLine nhl l) = [] := by
      cases hpost : t.dropWhile (fun l => !isEndLine nhl l) with
      | nil => rfl
      | cons ph pt =>
        rw [List.takeWhile_cons, if_neg (by simp [dropWhile_head_not hpost])]
    have hpostdw : (t.dropWhile (fun l => !isEndLine nhl l)).dropWhile
        (fun l => !isEndLine nhl l)
        = t.dropWhile (fun l => !isEndLine nhl l) := by
      cases hpost : t.dropWhile (fun l => !isEndLine nhl l) with
      | nil => rfl
      | cons ph pt =>
        rw [List.dropWhile_cons, if_neg (by simp [dropWhile_head_not hpost])]
    have hdw2 : (lines.takeWhile (fun l => !isStartLine sh l) ++ (h :: body)
        ++ t.dropWhile (fun l => !isEndLine nhl l)).dropWhile
          (fun l => !isStartLine sh l)
        = h :: (body ++ t.dropWhile (fun l => !isEndLine nhl l)) := by
      rw [List.append_assoc, List.cons_append]
      exact dropWhile_append_cons_gen hpre_fa hhstart _
    have htw2 : (lines.takeWhile (fun l => !isStartLine sh l) ++ (h :: body)
        ++ t.dropWhile (fun l => !isEndLine nhl l)).takeWhile
          (fun l => !isStartLine sh l)
        = lines.takeWhile (fun l => !isStartLine sh l) := by
      rw [List.append_assoc, List.cons_append]
      exact takeWhile_append_cons_gen hpre_fa hhstart _
    have hmid2 : (body ++ t.dropWhile (fun l => !isEndLine nhl l)).takeWhile
        (fun l => !isEndLine nhl l) = body := by
      rw [takeWhile_append_forall hbody_fa, hposttw, List.append_nil]
    have hpost2 : (body ++ t.dropWhile (fun l => !isEndLine nhl l)).dropWhile
        (fun l => !isEndLine nhl l)
        = t.dropWhile (fun l => !isEndLine nhl l) := by
      rw [dropWhile_append_forall hbody_fa, hpostdw]
    have hrb2 : rewriteBlock (h :: body) P = h :: body :=
      rewriteBlock_norm_identity hP h hnb hnd hcov hmf
    rw [hFlines]
    simp only [update_properties_block_preserve_format_with_deletions, hdw2]
    rw [htw2, hmid2, hpost2, hrb2]

/-- Witness for the amended C1 theorem at a concrete file, section headers
and new-property mapping. -/
theorem update_properties_block_idempotent_of_wf_witness :
    (PWF [("ro.x".toList, "2".toList)]
      ∧ (∀ l ∈ ["# LMKD property\n".toList, "ro.x=1\n".toList],
          containsSub productMarker (pstrip l) = false)
      ∧ (∀ e ∈ ["# DHA property".toList], e = [] ∨ e.head? = some '#'))
    ∧ update_properties_block_preserve_format_with_deletions
        (update_properties_block_preserve_format_with_deletions
          ["# LMKD property\n".toList, "ro.x=1\n".toList]
          [("ro.x".toList, "2".toList)] "# LMKD property".toList
          ["# DHA property".toList])
        [("ro.x".toList, "2".toList)] "# LMKD property".toList
        ["# DHA property".toList]
      = update_properties_block_preserve_format_with_deletions
          ["# LMKD property\n".toList, "ro.x=1\n".toList]
          [("ro.x".toList, "2".toList)] "# LMKD property".toList
          ["# DHA property".toList] :=
  ⟨⟨by unfold PWF KeyShape; decide, by decide, by decide⟩,
    update_properties_block_idempotent_of_wf
      ["# LMKD property\n".toList, "ro.x=1\n".toList]
      [("ro.x".toList, "2".toList)] "# LMKD property".toList
      ["# DHA property".toList] (by unfold PWF KeyShape; decide)
      (by decide) (by decide)⟩

/-! Claim theorems about the workspace resolver (C4). -/

theorem find_device_core_eq (views : List Str) :
    find_device_common_core views
      = ((((views.map leftSide).filter deviceCommonMatch).map
            deviceCommonCandidate).head?,
          views.map leftSide) := by
  induction views with
  | nil => rfl
  | cons v rest ih =>
    simp only [find_device_common_core, ih, List.map_cons, List.filter_cons]
    by_cases h : deviceCommonMatch (leftSide v)
    · simp [h]
    · simp [h]

/-- C4 counterexample: on a workspace whose single view line matches the
`device/<model>_common/` pattern but whose candidate path fails the
depot-path-exists check (validation oracle constantly false), the claimed
resolver returns `None` as first component while `find_device_common_mk_path`
returns the candidate: the code never consults the existence check. -/
theorem find_device_common_skips_validation :
    (find_device_common_core
        ["//vendor/x_oem/device/star_common/... //c/a/...".toList]).1
      = some "//vendor/x_oem/device/star_common/device_common.mk".toList
    ∧ claimed_first_component
        ["//vendor/x_oem/device/star_common/... //c/a/...".toList]
        (fun _ => false) = none
    ∧ (find_device_common_core
        ["//vendor/x_oem/device/star_common/... //c/a/...".toList]).1
      ≠ claimed_first_component
          ["//vendor/x_oem/device/star_common/... //c/a/...".toList]
          (fun _ => false) := by
  refine ⟨by decide, by decide, by decide⟩

/-- C4 amended: for every fetched view-mapping table, the workspace resolver
returns as first component the first candidate `device_common.mk` path built
from a left side matching the `device/<model>_common/` pattern — without any
depot-path-exists validation — `None` when no mapping line matches, and as
second component always the full unfiltered list of left-hand depot sides of
every mapping line, including the non-matching ones. -/
theorem find_device_common_mk_spec (views : List Str) :
    find_device_common_mk_run (.ok views)
      = .ok ((((views.map leftSide).filter deviceCommonMatch).map
            deviceCommonCandidate).head?,
          views.map leftSide) := by
  show Except.ok (find_device_common_core views) = _
  rw [find_device_core_eq]

/-! Claim theorems about the integration history walker (C5, C6). -/

/-- C5 counterexample: on a filelog output whose marker line's source path
itself contains the characters `from `, the code's `split("from ")[1]`
extraction truncates the path at that inner occurrence instead of removing
only the marker prefix, so it does not return the source path of the marker
line with only the revision suffix stripped. -/
theorem integration_source_truncates_from :
    get_integration_source_parse
        "... ... branch from //depot/from x/f.mk#1".toList
      = some "//depot/".toList
    ∧ claimed_integration_source
        "... ... branch from //depot/from x/f.mk#1".toList
      = some "//depot/from x/f.mk".toList
    ∧ get_integration_source_parse
        "... ... branch from //depot/from x/f.mk#1".toList
      ≠ claimed_integration_source
          "... ... branch from //depot/from x/f.mk#1".toList := by
  refine ⟨by decide, by decide, by decide⟩

/-- C5 amended: the integration-history parsing returns `None` (not an
exception) when no marker line exists, and on any filelog output whose first
`... ... branch from ` marker line carries a post-marker text containing no
further `from ` occurrence, it returns exactly the post-marker text with the
`#<revision>` suffix and any trailing comma-separated part stripped off (the
claimed behaviour); for paths containing `from ` the two differ, as the
counterexample shows. -/
theorem get_integration_source_parse_spec (stdout : Str) :
    (firstMarkerLine stdout = none →
      get_integration_source_parse stdout = none ∧
        claimed_integration_source stdout = none) ∧
    (∀ l, firstMarkerLine stdout = some l →
      containsSub "from ".toList ((pstrip l).drop branchFromMarker.length) = false →
      get_integration_source_parse stdout = claimed_integration_source stdout ∧
        claimed_integration_source stdout
          = some (beforeChar ','
              (beforeChar '#' ((pstrip l).drop branchFromMarker.length)))) := by
  constructor
  · intro hnone
    constructor
    · unfold get_integration_source_parse
      rw [hnone]
      split <;> rfl
    · unfold claimed_integration_source
      rw [hnone]
  · intro l hsome hno
    have hempty : pstrip stdout ≠ [] := by
      intro he
      have : firstMarkerLine stdout = none := by
        unfold firstMarkerLine
        rw [he]
        rfl
      rw [this] at hsome
      cases hsome
    have hpre : branchFromMarker.isPrefixOf (pstrip l) = true := by
      have h := hsome
      unfold firstMarkerLine at h
      simpa using List.find?_some h
    obtain ⟨t, ht⟩ := List.isPrefixOf_iff_prefix.mp hpre
    have hdropt : (pstrip l).drop branchFromMarker.length = t := by
      rw [← ht]
      exact List.drop_left _ _
    have hext : extractSourcePath (pstrip l)
        = beforeChar ',' (beforeChar '#' t) := by
      unfold extractSourcePath
      rw [← ht, pySplit_marker (by rwa [hdropt] at hno)]
      rfl
    have hcode : get_integration_source_parse stdout
        = some (extractSourcePath (pstrip l)) := by
      unfold get_integration_source_parse
      rw [if_neg hempty, hsome]
    have hclaim : claimed_integration_source stdout
        = some (beforeChar ',' (beforeChar '#' ((pstrip l).drop branchFromMarker.length))) := by
      unfold claimed_integration_source
      rw [hsome]
    refine ⟨?_, hclaim⟩
    rw [hcode, hclaim, hext, hdropt]

/-- C6 counterexample: when the `p4 filelog` command fails (non-zero exit
code — an infrastructure failure, not a missing-file probe), the integration
history walker returns `None` instead of raising: the failure is converted
into a not-found result, contradicting the propagation policy. -/
theorem walker_swallows_command_failure :
    get_integration_source_run
        (.ok ⟨1, "connect to server failed".toList⟩) = .ok none
    ∧ ∀ e, get_integration_source_run
        (.ok ⟨1, "connect to server failed".toList⟩) ≠ .error e := by
  refine ⟨rfl, fun e h => ?_⟩
  rw [show get_integration_source_run (.ok ⟨1, "connect to server failed".toList⟩)
      = Except.ok none from rfl] at h
  cases h

/-- C6 amended: the workspace resolver propagates every fetch failure
(`P4Exception`) as a raised `RuntimeError` carrying the `P4 Error: ` prefix,
but the integration history walker never raises: every outcome — exception,
non-zero exit, or parseable output — produces an `ok` result, and a failed
command (non-zero exit) yields `None` exactly like a missing integration
history. -/
theorem infrastructure_error_policy :
    (∀ e, find_device_common_mk_run (.error e)
        = .error ("P4 Error: ".toList ++ e)) ∧
    (∀ outcome, ∃ r, get_integration_source_run outcome = .ok r) ∧
    (∀ res : CmdResult, res.returncode ≠ 0 →
      get_integration_source_run (.ok res) = .ok none) := by
  refine ⟨fun e => rfl, fun outcome => ?_, fun res h => ?_⟩
  · cases outcome with
    | error e => exact ⟨none, rfl⟩
    | ok r =>
      by_cases hrc : r.returncode ≠ 0
      · exact ⟨none, by simp [get_integration_source_run, hrc]⟩
      · exact ⟨get_integration_source_parse r.stdout,
          by simp [get_integration_source_run, hrc]⟩
  · simp [get_integration_source_run, h]

/-! Claim theorems about the branch cascade resolver (C2). -/

/-- C2 counterexample: for the 3-branch order `[REL, FLUMEN, BENI]` with the
FLUMEN file lacking integration history, the strict resolver
`resolve_cascading_branches` raises
`Auto-resolve failed: No integration history found for FLUMEN: <path>` — an
error message that names FLUMEN, the branch whose history was missing, and
does not mention BENI anywhere. -/
theorem cascade_strict_names_flumen_not_beni :
    resolve_cascading_branches
        ⟨fun s => if s = "//rel/device_common.mk".toList
            then some "//flumen/device_common.mk".toList else none,
          fun _ => true⟩
        "//rel/device_common.mk".toList
        ["REL".toList, "FLUMEN".toList, "BENI".toList]
      = .error
          "Auto-resolve failed: No integration history found for FLUMEN: //flumen/device_common.mk".toList
    ∧ containsSub "BENI".toList
        "Auto-resolve failed: No integration history found for FLUMEN: //flumen/device_common.mk".toList
      = false := by
  refine ⟨rfl, by decide⟩

/-- C2 amended: for a 3-branch cascade `[REL, FLUMEN, BENI]` in which the
FLUMEN file has no integration history, the best-effort resolver
(`auto_resolve_vendor_branches`) returns without raising the partial result
carrying the resolved FLUMEN path, the original REL and VINCE inputs, and an
empty BENI; the strict resolver (`resolve_cascading_branches`) raises an
error identifying FLUMEN — the branch whose integration history was missing
— and its depot path, not BENI. -/
theorem cascade_partial_and_strict (cenv : CascadeEnv) (venv : VendorEnv)
    (vince rel relDepot fp : Str)
    (hv : pstrip vince ≠ [])
    (hr : pstrip rel ≠ [])
    (hfind : venv.findDeviceCommon (pstrip rel) = .ok (some relDepot))
    (hvalidR : venv.validDepot relDepot = true)
    (hsrcR : venv.integrationSource relDepot = some fp)
    (hfp : fp ≠ [])
    (hvalidF : venv.validDepot fp = true)
    (hsrcF : venv.integrationSource fp = none)
    (hcR : cenv.integrationSource relDepot = some fp)
    (hcF : cenv.integrationSource fp = none)
    (hcV : cenv.validDepot fp = true) :
    auto_resolve_vendor_branches venv vince [] [] rel
        = .ok ([], pstrip vince, fp, pstrip rel) ∧
      resolve_cascading_branches cenv relDepot
          ["REL".toList, "FLUMEN".toList, "BENI".toList]
        = .error
            ("Auto-resolve failed: No integration history found for FLUMEN: ".toList
              ++ fp) := by
  constructor
  · unfold auto_resolve_vendor_branches
    rw [if_neg hv]
    have htry : auto_resolve_vendor_try venv (pstrip vince) (pstrip ([] : Str))
        (pstrip ([] : Str)) (pstrip rel)
        = .ok (pstrip ([] : Str), pstrip vince, fp, pstrip rel) := by
      unfold auto_resolve_vendor_try
      rw [if_pos ⟨hr, hv, rfl, rfl⟩, hfind]
      simp [validOpt, hvalidR, hsrcR, hsrcF, beniFromFlumen, hfp, hvalidF]
    rw [htry]
    rfl
  · simp only [resolve_cascading_branches, resolve_cascading_go, hcR, hcF, hcV, hfp,
      ne_eq, not_false_eq_true, if_true, ite_true, ite_false, if_false]
    rfl

/-- Witness for the C9 theorem at a concrete input: a block opened by
`# LMKD property` and running to the end of the file. -/
theorem extract_block_spec_witness :
    extract_block ["x".toList, "# LMKD property".toList, "a=1".toList]
        "# LMKD property".toList ["# Chimera property".toList]
      = ["# LMKD property".toList, "a=1".toList] :=
  (extract_block_spec ["x".toList, "# LMKD property".toList, "a=1".toList]
      "# LMKD property".toList ["# Chimera property".toList]).2.2.2
    ["x".toList] "# LMKD property".toList ["a=1".toList]
    rfl (by decide) (by decide) (by decide)

/-- Witness for the C5 amended theorem at a concrete filelog output with a
well-formed marker line. -/
theorem get_integration_source_parse_spec_witness :
    get_integration_source_parse "... ... branch from //x/beni/d.mk#1,#3".toList
      = some "//x/beni/d.mk".toList := by
  have h := (get_integration_source_parse_spec
      "... ... branch from //x/beni/d.mk#1,#3".toList).2
      "... ... branch from //x/beni/d.mk#1,#3".toList (by decide) (by decide)
  rw [h.1, h.2]
  decide

/-- Witness for the C6 amended theorem at a concrete failed command. -/
theorem infrastructure_error_policy_witness :
    get_integration_source_run (.ok ⟨2, []⟩) = .ok none :=
  infrastructure_error_policy.2.2 ⟨2, []⟩ (by decide)

/-- Witness for the C3 theorem at the concrete block
`["# LMKD property\n", "A=1\n", "B=2\n"]` with new properties `{A: 1}`. -/
theorem rewrite_block_deletion_contract_witness :
    ((pstrip "# LMKD property\n".toList).head? = some '#'
      ∧ lookupKey (parse_properties_block
          ["# LMKD property\n".toList, "A=1\n".toList, "B=2\n".toList])
          "A".toList = some "1".toList
      ∧ lookupKey (parse_properties_block
          ["# LMKD property\n".toList, "A=1\n".toList, "B=2\n".toList])
          "B".toList = some "2".toList
      ∧ "A".toList ≠ "B".toList)
    ∧ ((∃ l ∈ rewriteBlock ["# LMKD property\n".toList, "A=1\n".toList,
          "B=2\n".toList] [("A".toList, "1".toList)],
        lineKey l = some "A".toList)
      ∧ ∀ l ∈ rewriteBlock ["# LMKD property\n".toList, "A=1\n".toList,
          "B=2\n".toList] [("A".toList, "1".toList)],
        lineKey l ≠ some "B".toList) :=
  ⟨⟨by decide, by decide, by decide, by decide⟩,
    rewrite_block_deletion_contract "# LMKD property\n".toList
      ["A=1\n".toList, "B=2\n".toList] "A".toList "B".toList
      "1".toList "2".toList (by decide) (by decide) (by decide) (by decide)⟩

/-- Witness for the C2 amended theorem at a concrete environment in which
REL resolves to a depot path whose integration source is the FLUMEN path,
and the FLUMEN path has no integration history. -/
theorem cascade_partial_and_strict_witness :
    auto_resolve_vendor_branches
        ⟨fun s => if s = "TEMPLATE_REL".toList then .ok (some "//rel/d.mk".toList)
            else .error [],
          fun _ => true,
          fun s => if s = "//rel/d.mk".toList then some "//flumen/d.mk".toList
            else none⟩
        "//vince/d.mk".toList [] [] "TEMPLATE_REL".toList
      = .ok ([], "//vince/d.mk".toList, "//flumen/d.mk".toList,
          "TEMPLATE_REL".toList)
    ∧ resolve_cascading_branches
        ⟨fun s => if s = "//rel/d.mk".toList then some "//flumen/d.mk".toList
            else none,
          fun _ => true⟩
        "//rel/d.mk".toList ["REL".toList, "FLUMEN".toList, "BENI".toList]
      = .error
          ("Auto-resolve failed: No integration history found for FLUMEN: ".toList
            ++ "//flumen/d.mk".toList) :=
  cascade_partial_and_strict
    ⟨fun s => if s = "//rel/d.mk".toList then some "//flumen/d.mk".toList else none,
      fun _ => true⟩
    ⟨fun s => if s = "TEMPLATE_REL".toList then .ok (some "//rel/d.mk".toList)
        else .error [],
      fun _ => true,
      fun s => if s = "//rel/d.mk".toList then some "//flumen/d.mk".toList
        else none⟩
    "//vince/d.mk".toList "TEMPLATE_REL".toList "//rel/d.mk".toList
    "//flumen/d.mk".toList (by decide) (by decide) rfl rfl rfl (by decide) rfl rfl
    rfl rfl rfl

end P4Tool
